import Mathlib

/-!
Shallow embedding of `src/basic/new_ecs/switch.rs` (rustpower).

The Rust code stores the union-find maps in `HashMap<u64, u64>`; here they are
rendered as association lists with unique keys (`alLookup` / `alInsert`), which
model the same partial map.  Machine `u64` node identifiers are modelled as
`Nat` (no arithmetic close to `2^64` occurs anywhere in the code), and `f64`
impedances/voltages are modelled as `ℚ`: the code only compares `z_ohm` with
`0.0` and copies the values around, so exact arithmetic is faithful.

Rust code that can panic (`HashMap` indexing with a missing key, `todo!()`,
out-of-range `Vec` indexing) is rendered with `Option`: `none` models a panic
(or, for the fuel-bounded root chase, a non-terminating loop, which on all
well-formed states never happens).
-/

/-- Lookup in an association list, first match wins.  Models `HashMap` lookup
(`map[&k]` / `map.get(&k)`), given that keys are unique. -/
def alLookup (k : Nat) : List (Nat × Nat) → Option Nat
  | [] => none
  | (k1, v) :: l => if k1 = k then some v else alLookup k l

/-- Insert/replace in an association list.  Models `HashMap::insert`. -/
def alInsert (k v : Nat) : List (Nat × Nat) → List (Nat × Nat)
  | [] => [(k, v)]
  | (k1, v1) :: l => if k1 = k then (k, v) :: l else (k1, v1) :: alInsert k v l

/-- The keys of an association list. -/
def alKeys (l : List (Nat × Nat)) : List Nat := l.map Prod.fst

/-- `SwitchType` from `crate::io::pandapower` (the variants matched in
`process_switch_state`). -/
inductive SwitchType where
  | SwitchBusLine
  | SwitchBusTransformer
  | SwitchTwoBuses
  | SwitchBusTransformer3w
  | Unknown
deriving DecidableEq, Repr

/-- `struct Switch { bus, element, et, z_ohm }`. -/
structure Switch where
  bus : Nat
  element : Nat
  et : SwitchType
  z_ohm : ℚ
deriving DecidableEq, Repr

/-- A complex number `Complex::new(re, im)` with exact coefficients. -/
structure Cx where
  re : ℚ
  im : ℚ
deriving DecidableEq, Repr

/-- One row of `net.bus`: only the field `vn_kv` is read by the switch step. -/
structure BusRow where
  vn_kv : ℚ
deriving DecidableEq, Repr

/-- `AdmittanceBranch { y: Admittance, port: Port2, v_base: VBase }`. -/
structure AdmittanceBranch where
  y : Cx
  port : Nat × Nat
  v_base : ℚ
deriving DecidableEq, Repr

/-- `struct NodeMerge { parent: HashMap<u64,u64>, rank: HashMap<u64,u64> }`. -/
structure NodeMerge where
  parent : List (Nat × Nat)
  rank : List (Nat × Nat)
deriving DecidableEq, Repr

/-- The loop in `NodeMerge::new`. -/
def newLoop : List Nat → NodeMerge → NodeMerge
  | [], m => m
  | n :: ns, m => newLoop ns ⟨alInsert n n m.parent, alInsert n 0 m.rank⟩

/-- `NodeMerge::new(nodes)`: every node its own parent, rank 0. -/
def NodeMerge.new (nodes : List Nat) : NodeMerge :=
  newLoop nodes ⟨[], []⟩

/-- First loop of `NodeMerge::find`: `while parent[&root] != root { root = parent[&root] }`.
Fuel-bounded; `none` models a missing-key panic or a diverging chase. -/
def findRootLoop (p : List (Nat × Nat)) : Nat → Nat → Option Nat
  | 0, _ => none
  | fuel + 1, root =>
    match alLookup root p with
    | none => none
    | some pr => if pr = root then some root else findRootLoop p fuel pr

/-- Second loop of `NodeMerge::find` (path compression):
`while parent[&current] != root { let pc = parent[&current]; parent.insert(current, root); current = pc }`. -/
def compressLoop (root : Nat) : Nat → Nat → List (Nat × Nat) → Option (List (Nat × Nat))
  | 0, _, _ => none
  | fuel + 1, current, p =>
    match alLookup current p with
    | none => none
    | some pc => if pc = root then some p else compressLoop root fuel pc (alInsert current root p)

/-- `NodeMerge::find(&mut self, node)`: returns the root together with the
state after path compression. -/
def NodeMerge.find (m : NodeMerge) (node : Nat) : Option (Nat × NodeMerge) :=
  match findRootLoop m.parent (m.parent.length + 1) node with
  | none => none
  | some root =>
    match compressLoop root (m.parent.length + 1) node m.parent with
    | none => none
    | some p2 => some (root, ⟨p2, m.rank⟩)

/-- `NodeMerge::union(&mut self, node1, node2)`: union by rank.  `none` models
a panic inside `find` or a missing rank entry (`self.rank[&root]`). -/
def NodeMerge.union (m : NodeMerge) (node1 node2 : Nat) : Option NodeMerge :=
  match m.find node1 with
  | none => none
  | some (root1, m1) =>
    match m1.find node2 with
    | none => none
    | some (root2, m2) =>
      if root1 = root2 then some m2
      else
        match alLookup root1 m2.rank, alLookup root2 m2.rank with
        | some rank1, some rank2 =>
          if rank1 < rank2 then
            some ⟨alInsert root1 root2 m2.parent, m2.rank⟩
          else
            some ⟨alInsert root2 root1 m2.parent,
                  if rank1 = rank2 then alInsert root1 (rank1 + 1) m2.rank else m2.rank⟩
        | _, _ => none

/-- Insertion into a key-sorted association list (by key, ascending). -/
def insertByKey (q : Nat × Nat) : List (Nat × Nat) → List (Nat × Nat)
  | [] => [q]
  | r :: l => if q.1 ≤ r.1 then q :: r :: l else r :: insertByKey q l

/-- Sort an association list by key, ascending.  Models `nodes.sort()` on the
collected `HashMap` keys: with unique keys, iterating the sorted key list and
looking each key up is the same as iterating the key-sorted entry list. -/
def sortByKey : List (Nat × Nat) → List (Nat × Nat)
  | [] => []
  | q :: l => insertByKey q (sortByKey l)

/-- The loop body of `NodeMerge::get_node_mapping`: walk the (key-sorted)
entries; `rtni` is `root_to_new_id`, `next` is `new_node_id`.  Note the Rust
code reads `self.parent.get(&node)` — the stored parent, not `find` — which is
exactly the entry value. -/
def gnmAux : List (Nat × Nat) → List (Nat × Nat) → Nat → List (Nat × Nat)
  | [], _, _ => []
  | (node, root) :: rest, rtni, next =>
    match alLookup root rtni with
    | some id => (node, id) :: gnmAux rest rtni next
    | none => (node, next) :: gnmAux rest (alInsert root next rtni) (next + 1)

/-- `NodeMerge::get_node_mapping(&self, starting_idx)`. -/
def NodeMerge.get_node_mapping (m : NodeMerge) (starting_idx : Nat) : List (Nat × Nat) :=
  gnmAux (sortByKey m.parent) [] starting_idx

/-- Effect of one iteration of the `q.iter().for_each` loop in
`process_switch_state` on the list of emitted `AdmittanceBranch` commands.
`none` models the `todo!()` panics (BusLine / BusTransformer) and an
out-of-range `net.bus[switch.bus as usize]`. -/
def processSwitch (busTable : List BusRow) (acc : List (Nat × AdmittanceBranch))
    (item : Nat × Switch × Bool) : Option (List (Nat × AdmittanceBranch)) :=
  match item.2.1.et with
  | SwitchType.SwitchBusLine => none
  | SwitchType.SwitchBusTransformer => none
  | SwitchType.SwitchTwoBuses =>
    if item.2.2 then
      match busTable[item.2.1.bus]? with
      | none => none
      | some row =>
        if item.2.1.z_ohm = 0 then
          some (acc ++ [(item.1,
            ⟨⟨1000000, 0⟩, (item.2.1.bus, item.2.1.element), row.vn_kv⟩)])
        else
          some (acc ++ [(item.1,
            ⟨⟨item.2.1.z_ohm, 0⟩, (item.2.1.bus, item.2.1.element), row.vn_kv⟩)])
    else some acc
  | SwitchType.SwitchBusTransformer3w => some acc
  | SwitchType.Unknown => some acc

/-- The whole `for_each` loop over the switch query. -/
def processLoop (busTable : List BusRow) :
    List (Nat × Switch × Bool) → List (Nat × AdmittanceBranch) →
    Option (List (Nat × AdmittanceBranch))
  | [], acc => some acc
  | it :: rest, acc =>
    match processSwitch busTable acc it with
    | none => none
    | some acc2 => processLoop busTable rest acc2

/-- `process_switch_state`: `nodeIdx` is the key set of the `NodeLookup`
resource, `busTable` is `net.bus`, `q` the query rows `(Entity, Switch,
SwitchState)`.  Returns the emitted branches and the published `NodeMapping`
(`none` in the second component = no resource inserted); an overall `none`
models a panic aborting the run, dropping all queued commands. -/
def process_switch_state (nodeIdx : List Nat) (busTable : List BusRow)
    (q : List (Nat × Switch × Bool)) :
    Option (List (Nat × AdmittanceBranch) × Option (List (Nat × Nat))) :=
  match processLoop busTable q [] with
  | none => none
  | some branches =>
    some (branches,
      if q.length > 0 then some ((NodeMerge.new nodeIdx).get_node_mapping 0) else none)

/-- Apply a list of unions in order; `none` if any union panics. -/
def applyUnions : NodeMerge → List (Nat × Nat) → Option NodeMerge
  | m, [] => some m
  | m, (a, b) :: rest =>
    match m.union a b with
    | none => none
    | some m2 => applyUnions m2 rest

/-- Observation of a node through `find`: the returned root, if any. -/
def obsRoot (m : NodeMerge) (x : Nat) : Option Nat :=
  (m.find x).map Prod.fst

/-! ## Concrete evaluations: code-bug demonstrations and counterexamples -/

/-- C1: evaluating the code at a closed `TwoBuses` switch with `z_ohm = 0`
between nodes 1 and 2: the run emits one `AdmittanceBranch` (admittance
`1e6 + 0i`) and the published mapping sends 1 and 2 to the distinct new
identifiers 0 and 1 — the endpoints are never unioned and a branch is
modeled, contradicting the claim on both counts. -/
theorem c1_code_bug_eval :
    process_switch_state [1, 2] [⟨10⟩, ⟨11⟩]
        [(0, ⟨1, 2, SwitchType.SwitchTwoBuses, 0⟩, true)] =
      some ([(0, ⟨⟨1000000, 0⟩, (1, 2), 11⟩)], some [(1, 0), (2, 1)]) ∧
    (0 : Nat) ≠ 1 :=
  ⟨rfl, by decide⟩

/-- C3: a batch holding a closed `BusLine` switch and a perfectly ordinary
closed `TwoBuses` switch aborts wholesale (the `todo!()` panic): the result is
`none`, so the other switch is not processed and nothing is reported. -/
theorem c3_code_bug_eval :
    process_switch_state [1, 2] [⟨10⟩, ⟨11⟩]
        [(0, ⟨1, 2, SwitchType.SwitchBusLine, 0⟩, true),
         (1, ⟨1, 2, SwitchType.SwitchTwoBuses, 0⟩, true)] = none :=
  rfl

/-- C4: a closed `TwoBuses` switch with `z_ohm = 5` emits exactly one branch,
and does not merge the endpoints, but the stored admittance is `5 + 0i` — the
impedance itself, not its reciprocal `1/5`. -/
theorem c4_code_bug_eval :
    process_switch_state [1, 2] [⟨10⟩, ⟨11⟩]
        [(0, ⟨1, 2, SwitchType.SwitchTwoBuses, 5⟩, true)] =
      some ([(0, ⟨⟨5, 0⟩, (1, 2), 11⟩)], some [(1, 0), (2, 1)]) ∧
    (5 : ℚ) ≠ 1 / 5 :=
  ⟨rfl, by norm_num⟩

/-- C2 counterexample: in the merger reached from nodes `[1,2,3,4]` by
`union 1 2; union 3 4; union 2 4`, nodes 1 and 4 are in the same equivalence
class (`find` returns root 1 for both), yet `get_node_mapping 0` sends them to
the distinct identifiers 0 and 1: the mapping reads stored parents, not
roots. -/
theorem c2_counterexample :
    (applyUnions (NodeMerge.new [1, 2, 3, 4]) [(1, 2), (3, 4), (2, 4)]).map
        (fun m => (obsRoot m 1, obsRoot m 4,
          alLookup 1 (m.get_node_mapping 0), alLookup 4 (m.get_node_mapping 0))) =
      some (some 1, some 1, some 0, some 1) ∧
    (some 0 : Option Nat) ≠ some 1 :=
  ⟨rfl, by decide⟩

/-- C5 counterexample: from the node set `[1,2,3,4]`, the union sequences
`(1,2),(3,4),(2,4)` and `(1,2),(1,3),(1,4)` produce the same final partition
(every node has root 1 in both mergers — a single class), yet
`get_node_mapping 0` differs between the two mergers. -/
theorem c5_counterexample :
    (applyUnions (NodeMerge.new [1, 2, 3, 4]) [(1, 2), (3, 4), (2, 4)]).map
        (fun m => ([obsRoot m 1, obsRoot m 2, obsRoot m 3, obsRoot m 4],
          m.get_node_mapping 0)) =
      some ([some 1, some 1, some 1, some 1], [(1, 0), (2, 0), (3, 0), (4, 1)]) ∧
    (applyUnions (NodeMerge.new [1, 2, 3, 4]) [(1, 2), (1, 3), (1, 4)]).map
        (fun m => ([obsRoot m 1, obsRoot m 2, obsRoot m 3, obsRoot m 4],
          m.get_node_mapping 0)) =
      some ([some 1, some 1, some 1, some 1], [(1, 0), (2, 0), (3, 0), (4, 0)]) ∧
    [(1, 0), (2, 0), (3, 0), (4, 1)] ≠ [(1, 0), (2, 0), (3, 0), (4, 0)] :=
  ⟨rfl, rfl, by decide⟩

/-- C6 counterexample: the merger reached from `[1,2,3,4]` by
`union 1 2; union 3 4; union 2 4` has exactly one equivalence class (all four
roots are 1), so the claim demands the identifier set `{0}`; but
`get_node_mapping 0` uses identifiers `0` and `1`. -/
theorem c6_counterexample :
    (applyUnions (NodeMerge.new [1, 2, 3, 4]) [(1, 2), (3, 4), (2, 4)]).map
        (fun m => ([obsRoot m 1, obsRoot m 2, obsRoot m 3, obsRoot m 4],
          (m.get_node_mapping 0).map Prod.snd)) =
      some ([some 1, some 1, some 1, some 1], [0, 0, 0, 1]) ∧
    (1 : Nat) ∉ ([0] : List Nat) :=
  ⟨rfl, by decide⟩

/-- C7 counterexample: a batch holding one (closed `BusLine`) switch is
nonempty, yet the run aborts on the `todo!()` panic and publishes no
`NodeMapping` — "publishes iff at least one switch is present" fails. -/
theorem c7_counterexample :
    process_switch_state [1, 2] [⟨10⟩, ⟨11⟩]
        [(0, ⟨1, 2, SwitchType.SwitchBusLine, 0⟩, true)] = none ∧
    ([(0, (⟨1, 2, SwitchType.SwitchBusLine, 0⟩ : Switch), true)]).length > 0 :=
  ⟨rfl, by decide⟩

/-! ## Association-list lemmas -/

theorem alLookup_alInsert (k v k2 : Nat) (l : List (Nat × Nat)) :
    alLookup k2 (alInsert k v l) = if k = k2 then some v else alLookup k2 l := by
  induction l with
  | nil => simp [alInsert, alLookup]
  | cons q t ih =>
    obtain ⟨k1, v1⟩ := q
    by_cases h1 : k1 = k
    · subst h1
      by_cases h2 : k1 = k2 <;> simp [alInsert, alLookup, h2]
    · by_cases h2 : k1 = k2
      · subst h2
        have : k ≠ k1 := fun h => h1 h.symm
        simp [alInsert, alLookup, h1, this]
      · simp [alInsert, alLookup, h1, h2, ih]

theorem alLookup_isSome_iff_mem (k : Nat) (l : List (Nat × Nat)) :
    (alLookup k l).isSome ↔ k ∈ alKeys l := by
  induction l with
  | nil => simp [alLookup, alKeys]
  | cons q t ih =>
    obtain ⟨k1, v1⟩ := q
    by_cases h : k1 = k
    · subst h
      simp [alLookup, alKeys]
    · have hne : k ≠ k1 := fun hk => h hk.symm
      simp [alLookup, alKeys, h, hne, ih]

theorem alLookup_eq_none_iff (k : Nat) (l : List (Nat × Nat)) :
    alLookup k l = none ↔ k ∉ alKeys l := by
  rw [← alLookup_isSome_iff_mem]
  cases alLookup k l <;> simp

theorem mem_alKeys_of_lookup {k v : Nat} {l : List (Nat × Nat)}
    (h : alLookup k l = some v) : k ∈ alKeys l := by
  rw [← alLookup_isSome_iff_mem, h]
  rfl

theorem mem_of_alLookup_eq_some {k v : Nat} {l : List (Nat × Nat)}
    (h : alLookup k l = some v) : (k, v) ∈ l := by
  induction l with
  | nil => simp [alLookup] at h
  | cons q t ih =>
    obtain ⟨k1, v1⟩ := q
    by_cases h1 : k1 = k
    · subst h1
      simp [alLookup] at h
      simp [h]
    · simp [alLookup, h1] at h
      simp [ih h]

theorem alLookup_eq_some_of_mem {k v : Nat} {l : List (Nat × Nat)}
    (hnd : (alKeys l).Nodup) (h : (k, v) ∈ l) : alLookup k l = some v := by
  induction l with
  | nil => simp at h
  | cons q t ih =>
    obtain ⟨k1, v1⟩ := q
    have hnd2 : k1 ∉ alKeys t ∧ (alKeys t).Nodup := by
      simpa [alKeys] using hnd
    rcases List.mem_cons.1 h with h1 | h1
    · obtain ⟨rfl, rfl⟩ : k1 = k ∧ v1 = v := by
        constructor
        · exact (congrArg Prod.fst h1).symm
        · exact (congrArg Prod.snd h1).symm
      simp [alLookup]
    · have hk : k1 ≠ k := by
        rintro rfl
        exact hnd2.1 (List.mem_map.2 ⟨(k1, v), h1, rfl⟩)
      simp only [alLookup, if_neg hk]
      exact ih hnd2.2 h1

theorem alKeys_alInsert (k v : Nat) (l : List (Nat × Nat)) :
    alKeys (alInsert k v l) = if k ∈ alKeys l then alKeys l else alKeys l ++ [k] := by
  induction l with
  | nil => simp [alInsert, alKeys]
  | cons q t ih =>
    obtain ⟨k1, v1⟩ := q
    by_cases h1 : k1 = k
    · subst h1
      simp [alInsert, alKeys]
    · have h1b : k ≠ k1 := fun h => h1 h.symm
      by_cases h2 : k ∈ alKeys t
      · have hmem : k ∈ alKeys ((k1, v1) :: t) := by simp [alKeys]; right; simpa [alKeys] using h2
        have ih2 : List.map Prod.fst (alInsert k v t) = List.map Prod.fst t := by
          have h3 := ih
          rw [if_pos h2] at h3
          simpa [alKeys] using h3
        simp only [alInsert, if_neg h1, if_pos hmem]
        simp [alKeys, ih2]
      · have hmem : k ∉ alKeys ((k1, v1) :: t) := by
          simp [alKeys, h1b]
          simpa [alKeys] using h2
        have ih2 : List.map Prod.fst (alInsert k v t) = List.map Prod.fst t ++ [k] := by
          have h3 := ih
          rw [if_neg h2] at h3
          simpa [alKeys] using h3
        simp only [alInsert, if_neg h1, if_neg hmem]
        simp [alKeys, ih2]

theorem alKeys_alInsert_of_mem {k : Nat} (v : Nat) {l : List (Nat × Nat)}
    (h : k ∈ alKeys l) : alKeys (alInsert k v l) = alKeys l := by
  simp [alKeys_alInsert, h]

theorem length_alInsert_of_mem {k : Nat} (v : Nat) {l : List (Nat × Nat)}
    (h : k ∈ alKeys l) : (alInsert k v l).length = l.length := by
  have h1 : (alKeys (alInsert k v l)).length = (alKeys l).length := by
    rw [alKeys_alInsert_of_mem v h]
  simpa [alKeys] using h1

/-! ## Lemmas about `get_node_mapping` -/

theorem insertByKey_perm (q : Nat × Nat) (l : List (Nat × Nat)) :
    List.Perm (insertByKey q l) (q :: l) := by
  induction l with
  | nil => simp [insertByKey]
  | cons r t ih =>
    by_cases h : q.1 ≤ r.1
    · simp [insertByKey, h]
    · simp only [insertByKey, if_neg h]
      exact (ih.cons r).trans (List.Perm.swap q r t)

theorem sortByKey_perm (l : List (Nat × Nat)) : List.Perm (sortByKey l) l := by
  induction l with
  | nil => simp [sortByKey]
  | cons q t ih => exact (insertByKey_perm q (sortByKey t)).trans (ih.cons q)

theorem alKeys_gnmAux (entries rtni : List (Nat × Nat)) (next : Nat) :
    alKeys (gnmAux entries rtni next) = alKeys entries := by
  induction entries generalizing rtni next with
  | nil => simp [gnmAux]
  | cons q rest ih =>
    obtain ⟨n, r⟩ := q
    cases h : alLookup r rtni with
    | some i => simp [gnmAux, h, alKeys] at ih ⊢; exact ih rtni next
    | none => simp [gnmAux, h, alKeys] at ih ⊢; exact ih (alInsert r next rtni) (next + 1)

/-- If the running `root_to_new_id` table already holds `py`, the mapping entry
for a node with stored parent `py` is exactly the stored identifier. -/
theorem gnmAux_lookup_of_rtni_some {entries rtni : List (Nat × Nat)} {next y py i : Nat}
    (hnd : (alKeys entries).Nodup) (hmem : (y, py) ∈ entries)
    (hin : alLookup py rtni = some i) :
    alLookup y (gnmAux entries rtni next) = some i := by
  induction entries generalizing rtni next with
  | nil => simp at hmem
  | cons q rest ih =>
    obtain ⟨n, r⟩ := q
    have hnd2 : n ∉ alKeys rest ∧ (alKeys rest).Nodup := by simpa [alKeys] using hnd
    rcases List.mem_cons.1 hmem with h1 | h1
    · have hyn : y = n := congrArg Prod.fst h1
      have hpyr : py = r := congrArg Prod.snd h1
      subst hyn; subst hpyr
      simp [gnmAux, hin, alLookup]
    · have hyk : y ∈ alKeys rest := List.mem_map.2 ⟨(y, py), h1, rfl⟩
      have hny : n ≠ y := fun h => hnd2.1 (h ▸ hyk)
      cases hr : alLookup r rtni with
      | some j =>
        simp only [gnmAux, hr, alLookup, if_neg hny]
        exact ih hnd2.2 h1 hin
      | none =>
        have hrpy : r ≠ py := by
          rintro rfl
          rw [hin] at hr
          exact Option.noConfusion hr
        have hin2 : alLookup py (alInsert r next rtni) = some i := by
          rw [alLookup_alInsert, if_neg hrpy]
          exact hin
        simp only [gnmAux, hr, alLookup, if_neg hny]
        exact ih hnd2.2 h1 hin2

/-- If the running table does not hold `py` yet, the node gets a fresh
identifier, at least `next`. -/
theorem gnmAux_lookup_of_rtni_none {entries rtni : List (Nat × Nat)} {next y py : Nat}
    (hnd : (alKeys entries).Nodup) (hmem : (y, py) ∈ entries)
    (hnone : alLookup py rtni = none) :
    ∃ j, alLookup y (gnmAux entries rtni next) = some j ∧ next ≤ j := by
  induction entries generalizing rtni next with
  | nil => simp at hmem
  | cons q rest ih =>
    obtain ⟨n, r⟩ := q
    have hnd2 : n ∉ alKeys rest ∧ (alKeys rest).Nodup := by simpa [alKeys] using hnd
    rcases List.mem_cons.1 hmem with h1 | h1
    · have hyn : y = n := congrArg Prod.fst h1
      have hpyr : py = r := congrArg Prod.snd h1
      subst hyn; subst hpyr
      refine ⟨next, ?_, le_refl next⟩
      simp [gnmAux, hnone, alLookup]
    · have hyk : y ∈ alKeys rest := List.mem_map.2 ⟨(y, py), h1, rfl⟩
      have hny : n ≠ y := fun h => hnd2.1 (h ▸ hyk)
      cases hr : alLookup r rtni with
      | some j =>
        obtain ⟨j2, hj2, hle⟩ :
            ∃ j, alLookup y (gnmAux rest rtni next) = some j ∧ next ≤ j :=
          ih hnd2.2 h1 hnone
        refine ⟨j2, ?_, hle⟩
        simp only [gnmAux, hr, alLookup, if_neg hny]
        exact hj2
      | none =>
        by_cases hrpy : r = py
        · subst hrpy
          have hin2 : alLookup r (alInsert r next rtni) = some next := by
            rw [alLookup_alInsert, if_pos rfl]
          refine ⟨next, ?_, le_refl next⟩
          simp only [gnmAux, hr, alLookup, if_neg hny]
          exact gnmAux_lookup_of_rtni_some hnd2.2 h1 hin2
        · have hnone2 : alLookup py (alInsert r next rtni) = none := by
            rw [alLookup_alInsert, if_neg hrpy]
            exact hnone
          obtain ⟨j2, hj2, hle⟩ :
              ∃ j, alLookup y (gnmAux rest (alInsert r next rtni) (next + 1)) = some j ∧
                next + 1 ≤ j :=
            ih hnd2.2 h1 hnone2
          refine ⟨j2, ?_, le_trans (Nat.le_succ next) hle⟩
          simp only [gnmAux, hr, alLookup, if_neg hny]
          exact hj2

/-- Head-versus-rest case of the mapping-equality characterization. -/
theorem gnmAux_head_rest_iff {rest rtni : List (Nat × Nat)} {next n r y py : Nat}
    (hnd : (alKeys ((n, r) :: rest)).Nodup)
    (hbound : ∀ r2 j, alLookup r2 rtni = some j → j < next)
    (hinj : ∀ r2 r3 j, alLookup r2 rtni = some j → alLookup r3 rtni = some j → r2 = r3)
    (hy : (y, py) ∈ rest) :
    (alLookup n (gnmAux ((n, r) :: rest) rtni next) =
      alLookup y (gnmAux ((n, r) :: rest) rtni next)) ↔ r = py := by
  have hnd2 : n ∉ alKeys rest ∧ (alKeys rest).Nodup := by simpa [alKeys] using hnd
  have hyk : y ∈ alKeys rest := List.mem_map.2 ⟨(y, py), hy, rfl⟩
  have hny : n ≠ y := fun h => hnd2.1 (h ▸ hyk)
  cases hr : alLookup r rtni with
  | some i =>
    have hxl : alLookup n (gnmAux ((n, r) :: rest) rtni next) = some i := by
      simp [gnmAux, hr, alLookup]
    cases hpy : alLookup py rtni with
    | some i2 =>
      have hyl : alLookup y (gnmAux ((n, r) :: rest) rtni next) = some i2 := by
        simp only [gnmAux, hr, alLookup, if_neg hny]
        exact gnmAux_lookup_of_rtni_some hnd2.2 hy hpy
      rw [hxl, hyl]
      constructor
      · intro h
        exact hinj r py i hr ((Option.some.inj h) ▸ hpy)
      · intro h
        subst h
        rw [hr] at hpy
        rw [Option.some.inj hpy]
    | none =>
      obtain ⟨j, hyl, hj⟩ :
          ∃ j, alLookup y (gnmAux rest rtni next) = some j ∧ next ≤ j :=
        gnmAux_lookup_of_rtni_none hnd2.2 hy hpy
      have hyl2 : alLookup y (gnmAux ((n, r) :: rest) rtni next) = some j := by
        simp only [gnmAux, hr, alLookup, if_neg hny]
        exact hyl
      rw [hxl, hyl2]
      have hbi : i < next := hbound r i hr
      constructor
      · intro h
        have := Option.some.inj h
        omega
      · rintro rfl
        rw [hr] at hpy
        exact Option.noConfusion hpy
  | none =>
    have hxl : alLookup n (gnmAux ((n, r) :: rest) rtni next) = some next := by
      simp [gnmAux, hr, alLookup]
    by_cases hrpy : r = py
    · subst hrpy
      have hin2 : alLookup r (alInsert r next rtni) = some next := by
        rw [alLookup_alInsert, if_pos rfl]
      have hyl : alLookup y (gnmAux ((n, r) :: rest) rtni next) = some next := by
        simp only [gnmAux, hr, alLookup, if_neg hny]
        exact gnmAux_lookup_of_rtni_some hnd2.2 hy hin2
      rw [hxl, hyl]
      simp
    · have hpy2 : alLookup py (alInsert r next rtni) = alLookup py rtni := by
        rw [alLookup_alInsert, if_neg hrpy]
      cases hpy : alLookup py rtni with
      | some i2 =>
        have hyl : alLookup y (gnmAux ((n, r) :: rest) rtni next) = some i2 := by
          simp only [gnmAux, hr, alLookup, if_neg hny]
          exact gnmAux_lookup_of_rtni_some hnd2.2 hy (by rw [hpy2]; exact hpy)
        rw [hxl, hyl]
        have hi2 : i2 < next := hbound py i2 hpy
        constructor
        · intro h
          have := Option.some.inj h
          omega
        · intro h
          exact absurd h hrpy
      | none =>
        have hpy3 : alLookup py (alInsert r next rtni) = none := by
          rw [hpy2]
          exact hpy
        obtain ⟨j, hyl, hj⟩ :
            ∃ j, alLookup y (gnmAux rest (alInsert r next rtni) (next + 1)) = some j ∧
              next + 1 ≤ j :=
          gnmAux_lookup_of_rtni_none hnd2.2 hy hpy3
        have hyl2 : alLookup y (gnmAux ((n, r) :: rest) rtni next) = some j := by
          simp only [gnmAux, hr, alLookup, if_neg hny]
          exact hyl
        rw [hxl, hyl2]
        constructor
        · intro h
          have := Option.some.inj h
          omega
        · intro h
          exact absurd h hrpy

/-- Two nodes receive the same `get_node_mapping` identifier iff their stored
parent values coincide (general loop version). -/
theorem gnmAux_lookup_eq_iff {entries rtni : List (Nat × Nat)} {next x px y py : Nat}
    (hnd : (alKeys entries).Nodup)
    (hbound : ∀ r j, alLookup r rtni = some j → j < next)
    (hinj : ∀ r r2 j, alLookup r rtni = some j → alLookup r2 rtni = some j → r = r2)
    (hx : (x, px) ∈ entries) (hy : (y, py) ∈ entries) :
    (alLookup x (gnmAux entries rtni next) = alLookup y (gnmAux entries rtni next)) ↔ px = py := by
  induction entries generalizing rtni next with
  | nil => simp at hx
  | cons q rest ih =>
    obtain ⟨n, r⟩ := q
    have hnd2 : n ∉ alKeys rest ∧ (alKeys rest).Nodup := by simpa [alKeys] using hnd
    rcases List.mem_cons.1 hx with hx1 | hx1 <;> rcases List.mem_cons.1 hy with hy1 | hy1
    · have e1 : x = n := congrArg Prod.fst hx1
      have e2 : px = r := congrArg Prod.snd hx1
      have e3 : y = n := congrArg Prod.fst hy1
      have e4 : py = r := congrArg Prod.snd hy1
      subst e1; subst e2; subst e3; subst e4
      simp
    · have e1 : x = n := congrArg Prod.fst hx1
      have e2 : px = r := congrArg Prod.snd hx1
      subst e1; subst e2
      exact gnmAux_head_rest_iff hnd hbound hinj hy1
    · have e3 : y = n := congrArg Prod.fst hy1
      have e4 : py = r := congrArg Prod.snd hy1
      subst e3; subst e4
      have h := gnmAux_head_rest_iff hnd hbound hinj hx1
      exact ⟨fun hh => (h.1 hh.symm).symm, fun hh => (h.2 hh.symm).symm⟩
    · have hxk : x ∈ alKeys rest := List.mem_map.2 ⟨(x, px), hx1, rfl⟩
      have hyk : y ∈ alKeys rest := List.mem_map.2 ⟨(y, py), hy1, rfl⟩
      have hnx : n ≠ x := fun h => hnd2.1 (h ▸ hxk)
      have hny : n ≠ y := fun h => hnd2.1 (h ▸ hyk)
      cases hr : alLookup r rtni with
      | some i =>
        simp only [gnmAux, hr, alLookup, if_neg hnx, if_neg hny]
        exact ih hnd2.2 hbound hinj hx1 hy1
      | none =>
        simp only [gnmAux, hr, alLookup, if_neg hnx, if_neg hny]
        refine ih hnd2.2 ?_ ?_ hx1 hy1
        · intro r2 j hj
          rw [alLookup_alInsert] at hj
          by_cases h2 : r = r2
          · rw [if_pos h2] at hj
            have := Option.some.inj hj
            omega
          · rw [if_neg h2] at hj
            have := hbound r2 j hj
            omega
        · intro r2 r3 j h2 h3
          rw [alLookup_alInsert] at h2 h3
          by_cases hr2 : r = r2 <;> by_cases hr3 : r = r3
          · rw [← hr2, ← hr3]
          · rw [if_pos hr2] at h2
            rw [if_neg hr3] at h3
            have hb := hbound r3 j h3
            have := Option.some.inj h2
            omega
          · rw [if_neg hr2] at h2
            rw [if_pos hr3] at h3
            have hb := hbound r2 j h2
            have := Option.some.inj h3
            omega
          · rw [if_neg hr2] at h2
            rw [if_neg hr3] at h3
            exact hinj r2 r3 j h2 h3

/-- C2 (amended): for every merger state with duplicate-free parent keys and
every starting index `k`, `get_node_mapping k` maps two registered node
identifiers to the same new identifier if and only if their STORED parent
entries are equal at the time the mapping is produced (the code reads
`parent[node]`, not `find(node)`; only when every stored parent is a class
root does this agree with same-equivalence-class). -/
theorem c2_amended (m : NodeMerge) (k x y px py : Nat)
    (hnd : (alKeys m.parent).Nodup)
    (hx : alLookup x m.parent = some px) (hy : alLookup y m.parent = some py) :
    (alLookup x (m.get_node_mapping k) = alLookup y (m.get_node_mapping k)) ↔ px = py := by
  have hperm := sortByKey_perm m.parent
  have hknd : (alKeys (sortByKey m.parent)).Nodup := ((hperm.map Prod.fst).nodup_iff).2 hnd
  have hxm : (x, px) ∈ sortByKey m.parent := hperm.mem_iff.2 (mem_of_alLookup_eq_some hx)
  have hym : (y, py) ∈ sortByKey m.parent := hperm.mem_iff.2 (mem_of_alLookup_eq_some hy)
  refine gnmAux_lookup_eq_iff hknd ?_ ?_ hxm hym
  · intro r j h
    simp [alLookup] at h
  · intro r r2 j h
    simp [alLookup] at h

/-- Witness for `c2_amended` at the merger reached from `[1,2,3]` by
`union 1 2`: nodes 2 and 3 have stored parents 1 and 3, and their mapping
identifiers indeed differ. -/
theorem c2_amended_witness :
    (alKeys (NodeMerge.new [1, 2, 3]).parent).Nodup ∧
    alLookup 2 (NodeMerge.new [1, 2, 3]).parent = some 2 ∧
    alLookup 3 (NodeMerge.new [1, 2, 3]).parent = some 3 ∧
    ((alLookup 2 ((NodeMerge.new [1, 2, 3]).get_node_mapping 0) =
      alLookup 3 ((NodeMerge.new [1, 2, 3]).get_node_mapping 0)) ↔ (2 : Nat) = 3) :=
  ⟨by decide, by decide, by decide,
    c2_amended (NodeMerge.new [1, 2, 3]) 0 2 3 2 3 (by decide) (by decide) (by decide)⟩

/-- Number of fresh identifiers `get_node_mapping`'s loop hands out: one per
stored-parent value not yet in the `root_to_new_id` table. -/
def freshCount : List (Nat × Nat) → List (Nat × Nat) → Nat
  | [], _ => 0
  | (_, r) :: rest, rtni =>
    match alLookup r rtni with
    | some _ => freshCount rest rtni
    | none => freshCount rest (alInsert r 0 rtni) + 1

theorem freshCount_congr {e rtni1 rtni2 : List (Nat × Nat)}
    (h : ∀ x, x ∈ alKeys rtni1 ↔ x ∈ alKeys rtni2) :
    freshCount e rtni1 = freshCount e rtni2 := by
  induction e generalizing rtni1 rtni2 with
  | nil => rfl
  | cons q rest ih =>
    obtain ⟨n, r⟩ := q
    cases h1 : alLookup r rtni1 with
    | some i =>
      have hm : r ∈ alKeys rtni2 := (h r).1 (mem_alKeys_of_lookup h1)
      have hs : (alLookup r rtni2).isSome := (alLookup_isSome_iff_mem r rtni2).2 hm
      obtain ⟨v, h2⟩ : ∃ v, alLookup r rtni2 = some v := by
        cases hv : alLookup r rtni2
        · rw [hv] at hs
          simp at hs
        · exact ⟨_, rfl⟩
      simp only [freshCount, h1, h2]
      exact ih h
    | none =>
      have hn1 : r ∉ alKeys rtni1 := (alLookup_eq_none_iff r rtni1).1 h1
      have hn2 : r ∉ alKeys rtni2 := fun hm => hn1 ((h r).2 hm)
      have h2 : alLookup r rtni2 = none := (alLookup_eq_none_iff r rtni2).2 hn2
      simp only [freshCount, h1, h2]
      have hkeys : ∀ x, x ∈ alKeys (alInsert r 0 rtni1) ↔ x ∈ alKeys (alInsert r 0 rtni2) := by
        intro x
        rw [alKeys_alInsert, if_neg hn1, alKeys_alInsert, if_neg hn2]
        simp [List.mem_append, h x]
      rw [ih hkeys]

/-- Every identifier in the produced mapping is either an identifier already in
the table or lies in the fresh block `[next, next + freshCount)`. -/
theorem gnmAux_range_up {entries rtni : List (Nat × Nat)} {next x j : Nat}
    (hbound : ∀ r i, alLookup r rtni = some i → i < next)
    (hj : alLookup x (gnmAux entries rtni next) = some j) :
    (∃ r, alLookup r rtni = some j) ∨ (next ≤ j ∧ j < next + freshCount entries rtni) := by
  induction entries generalizing rtni next with
  | nil => simp [gnmAux, alLookup] at hj
  | cons q rest ih =>
    obtain ⟨n, r⟩ := q
    cases hr : alLookup r rtni with
    | some i =>
      simp only [gnmAux, hr, alLookup] at hj
      by_cases hnx : n = x
      · rw [if_pos hnx] at hj
        exact Or.inl ⟨r, by rw [hr, Option.some.inj hj]⟩
      · rw [if_neg hnx] at hj
        rcases ih hbound hj with h | h
        · exact Or.inl h
        · right
          simp only [freshCount, hr]
          exact h
    | none =>
      have hfc : freshCount ((n, r) :: rest) rtni = freshCount rest (alInsert r next rtni) + 1 := by
        simp only [freshCount, hr]
        congr 1
        refine freshCount_congr ?_
        intro z
        have hrk : r ∉ alKeys rtni := (alLookup_eq_none_iff r rtni).1 hr
        rw [alKeys_alInsert, if_neg hrk, alKeys_alInsert, if_neg hrk]
      simp only [gnmAux, hr, alLookup] at hj
      by_cases hnx : n = x
      · rw [if_pos hnx] at hj
        have hjn : next = j := Option.some.inj hj
        right
        omega
      · rw [if_neg hnx] at hj
        have hbound2 : ∀ r2 i, alLookup r2 (alInsert r next rtni) = some i → i < next + 1 := by
          intro r2 i h2
          rw [alLookup_alInsert] at h2
          by_cases h3 : r = r2
          · rw [if_pos h3] at h2
            have := Option.some.inj h2
            omega
          · rw [if_neg h3] at h2
            have := hbound r2 i h2
            omega
        rcases ih hbound2 hj with ⟨r2, h2⟩ | h
        · rw [alLookup_alInsert] at h2
          by_cases h3 : r = r2
          · rw [if_pos h3] at h2
            have := Option.some.inj h2
            right
            omega
          · rw [if_neg h3] at h2
            exact Or.inl ⟨r2, h2⟩
        · right
          omega

/-- Every identifier in the fresh block `[next, next + freshCount)` is hit by
some node of the mapping. -/
theorem gnmAux_range_down {entries rtni : List (Nat × Nat)} {next j : Nat}
    (hnd : (alKeys entries).Nodup)
    (hj1 : next ≤ j) (hj2 : j < next + freshCount entries rtni) :
    ∃ x, alLookup x (gnmAux entries rtni next) = some j := by
  induction entries generalizing rtni next with
  | nil =>
    simp only [freshCount] at hj2
    omega
  | cons q rest ih =>
    obtain ⟨n, r⟩ := q
    have hnd2 : n ∉ alKeys rest ∧ (alKeys rest).Nodup := by simpa [alKeys] using hnd
    cases hr : alLookup r rtni with
    | some i =>
      have hfc : freshCount ((n, r) :: rest) rtni = freshCount rest rtni := by
        simp only [freshCount, hr]
      rw [hfc] at hj2
      obtain ⟨x, hx⟩ : ∃ x, alLookup x (gnmAux rest rtni next) = some j :=
        ih hnd2.2 hj1 hj2
      refine ⟨x, ?_⟩
      have hxk : x ∈ alKeys rest := by
        have h2 := mem_alKeys_of_lookup hx
        rwa [show alKeys (gnmAux rest rtni next) = alKeys rest from alKeys_gnmAux rest rtni next] at h2
      have hnx : ¬n = x := fun h => hnd2.1 (h ▸ hxk)
      simp only [gnmAux, hr, alLookup, if_neg hnx]
      exact hx
    | none =>
      have hfc : freshCount ((n, r) :: rest) rtni = freshCount rest (alInsert r next rtni) + 1 := by
        simp only [freshCount, hr]
        congr 1
        refine freshCount_congr ?_
        intro z
        have hrk : r ∉ alKeys rtni := (alLookup_eq_none_iff r rtni).1 hr
        rw [alKeys_alInsert, if_neg hrk, alKeys_alInsert, if_neg hrk]
      by_cases hjn : j = next
      · refine ⟨n, ?_⟩
        simp [gnmAux, hr, alLookup, hjn]
      · rw [hfc] at hj2
        obtain ⟨x, hx⟩ :
            ∃ x, alLookup x (gnmAux rest (alInsert r next rtni) (next + 1)) = some j :=
          ih hnd2.2 (by omega) (by omega)
        refine ⟨x, ?_⟩
        have hxk : x ∈ alKeys rest := by
          have h2 := mem_alKeys_of_lookup hx
          rwa [show alKeys (gnmAux rest (alInsert r next rtni) (next + 1)) = alKeys rest from
            alKeys_gnmAux rest (alInsert r next rtni) (next + 1)] at h2
        have hnx : ¬n = x := fun h => hnd2.1 (h ▸ hxk)
        simp only [gnmAux, hr, alLookup, if_neg hnx]
        exact hx

theorem freshCount_eq_card (entries : List (Nat × Nat)) (rtni : List (Nat × Nat)) :
    freshCount entries rtni =
      ((entries.map Prod.snd).toFinset \ (alKeys rtni).toFinset).card := by
  induction entries generalizing rtni with
  | nil => simp [freshCount]
  | cons q rest ih =>
    obtain ⟨n, r⟩ := q
    cases hr : alLookup r rtni with
    | some i =>
      have hrk : r ∈ (alKeys rtni).toFinset := List.mem_toFinset.2 (mem_alKeys_of_lookup hr)
      simp only [freshCount, hr, List.map_cons, List.toFinset_cons]
      rw [ih, Finset.insert_sdiff_of_mem _ hrk]
    | none =>
      have hrk0 : r ∉ alKeys rtni := (alLookup_eq_none_iff r rtni).1 hr
      have hrk : r ∉ (alKeys rtni).toFinset := fun h => hrk0 (List.mem_toFinset.1 h)
      simp only [freshCount, hr, List.map_cons, List.toFinset_cons]
      rw [ih]
      have hkeys : (alKeys (alInsert r 0 rtni)).toFinset = insert r (alKeys rtni).toFinset := by
        rw [alKeys_alInsert, if_neg hrk0]
        ext z
        simp [List.toFinset_append, or_comm]
      rw [hkeys, Finset.sdiff_insert, Finset.insert_sdiff_of_not_mem _ hrk]
      set S := (rest.map Prod.snd).toFinset \ (alKeys rtni).toFinset with hS
      by_cases hrS : r ∈ S
      · rw [Finset.insert_eq_self.2 hrS, Finset.card_erase_of_mem hrS]
        have : 0 < S.card := Finset.card_pos.2 ⟨r, hrS⟩
        omega
      · rw [Finset.erase_eq_of_not_mem hrS, Finset.card_insert_of_not_mem hrS]

/-- C6 (amended): for every merger state with duplicate-free parent keys and
every starting index `k`, the set of new identifiers produced by
`get_node_mapping k` is exactly the contiguous range
`{k, ..., k + D - 1}` where `D` is the number of DISTINCT STORED PARENT
values — not the number of equivalence classes, which can be smaller when a
stored parent is not a root. -/
theorem c6_amended (m : NodeMerge) (k j : Nat) (hnd : (alKeys m.parent).Nodup) :
    (∃ x, alLookup x (m.get_node_mapping k) = some j) ↔
      k ≤ j ∧ j < k + (m.parent.map Prod.snd).toFinset.card := by
  have hperm := sortByKey_perm m.parent
  have hknd : (alKeys (sortByKey m.parent)).Nodup := ((hperm.map Prod.fst).nodup_iff).2 hnd
  have hD : freshCount (sortByKey m.parent) [] = (m.parent.map Prod.snd).toFinset.card := by
    rw [freshCount_eq_card]
    have hv : ((sortByKey m.parent).map Prod.snd).toFinset = (m.parent.map Prod.snd).toFinset := by
      ext z
      simp only [List.mem_toFinset]
      exact (hperm.map Prod.snd).mem_iff
    simp [alKeys, hv]
  simp only [NodeMerge.get_node_mapping]
  constructor
  · rintro ⟨x, hx⟩
    rcases gnmAux_range_up (fun r i h => by simp [alLookup] at h) hx with ⟨r, h⟩ | h
    · simp [alLookup] at h
    · rw [hD] at h
      exact h
  · rintro ⟨h1, h2⟩
    rw [← hD] at h2
    exact gnmAux_range_down hknd h1 h2

/-- Witness for `c6_amended`: the fresh merger on `[5, 7]` with starting index
3 maps onto exactly `{3, 4}`; identifier 4 is attained. -/
theorem c6_amended_witness :
    (alKeys (NodeMerge.new [5, 7]).parent).Nodup ∧
    ((∃ x, alLookup x ((NodeMerge.new [5, 7]).get_node_mapping 3) = some 4) ↔
      3 ≤ 4 ∧ 4 < 3 + ((NodeMerge.new [5, 7]).parent.map Prod.snd).toFinset.card) :=
  ⟨by decide, c6_amended (NodeMerge.new [5, 7]) 3 4 (by decide)⟩

/-! ## Evaluation of `find` on shallow states, and mapping determinism -/

theorem findRootLoop_root {p : List (Nat × Nat)} {x fuel : Nat}
    (h : alLookup x p = some x) : findRootLoop p (fuel + 1) x = some x := by
  simp [findRootLoop, h]

theorem compressLoop_stop {p : List (Nat × Nat)} {root x fuel : Nat}
    (h : alLookup x p = some root) : compressLoop root (fuel + 1) x p = some p := by
  simp [compressLoop, h]

/-- `find` at a node that is its own parent returns it unchanged. -/
theorem find_of_root {m : NodeMerge} {x : Nat} (h : alLookup x m.parent = some x) :
    m.find x = some (x, m) := by
  simp [NodeMerge.find, findRootLoop_root h, compressLoop_stop h]

/-- `find` on a depth-one chain `x ↦ r ↦ r` returns `r` and (since the stored
parent already equals the root) changes nothing. -/
theorem find_of_depth1 {m : NodeMerge} {x r : Nat} (hx : alLookup x m.parent = some r)
    (hr : alLookup r m.parent = some r) (hrx : r ≠ x) :
    m.find x = some (r, m) := by
  have h1 : findRootLoop m.parent (m.parent.length + 1) x = some r := by
    obtain ⟨len, hlen⟩ : ∃ k, m.parent.length = k + 1 := by
      cases hp : m.parent with
      | nil =>
        rw [hp] at hx
        simp [alLookup] at hx
      | cons hd tl => exact ⟨tl.length, by simp [hp]⟩
    rw [hlen]
    simp [findRootLoop, hx, hrx, hr]
  simp [NodeMerge.find, h1, compressLoop_stop hx]

/-- On a flattened state (every stored parent is a root), the observed root of
a registered node is exactly its stored parent. -/
theorem obsRoot_of_flat {m : NodeMerge} {x r : Nat}
    (hx : alLookup x m.parent = some r) (hr : alLookup r m.parent = some r) :
    obsRoot m x = some r := by
  by_cases h : r = x
  · subst h
    rw [obsRoot, find_of_root hx]
    rfl
  · rw [obsRoot, find_of_depth1 hx hr h]
    rfl

/-- The mapping loop is determined by the key sequence, the kernel of the
value sequence, and kernel-compatible tables. -/
theorem gnmAux_congr {e1 e2 rtni1 rtni2 : List (Nat × Nat)} {next : Nat}
    (hfst : e1.map Prod.fst = e2.map Prod.fst)
    (hcross : ∀ (i : Nat) (v1 v2 : Nat), (e1.map Prod.snd)[i]? = some v1 →
      (e2.map Prod.snd)[i]? = some v2 → alLookup v1 rtni1 = alLookup v2 rtni2)
    (hker : ∀ (i j : Nat) (a b c d : Nat), (e1.map Prod.snd)[i]? = some a →
      (e1.map Prod.snd)[j]? = some b → (e2.map Prod.snd)[i]? = some c →
      (e2.map Prod.snd)[j]? = some d → (a = b ↔ c = d)) :
    gnmAux e1 rtni1 next = gnmAux e2 rtni2 next := by
  induction e1 generalizing e2 rtni1 rtni2 next with
  | nil =>
    have h2 : e2 = [] := by
      cases e2
      · rfl
      · simp at hfst
    subst h2
    rfl
  | cons q t1 ih =>
    obtain ⟨n, a⟩ := q
    cases e2 with
    | nil => simp at hfst
    | cons q2 t2 =>
      obtain ⟨n2, c⟩ := q2
      have hn : n = n2 ∧ t1.map Prod.fst = t2.map Prod.fst := by simpa using hfst
      obtain ⟨rfl, hfst2⟩ := hn
      have hhead := hcross 0 a c (by simp) (by simp)
      cases ha : alLookup a rtni1 with
      | some i =>
        have hc : alLookup c rtni2 = some i := by rw [← hhead, ha]
        simp only [gnmAux, ha, hc]
        congr 1
        refine ih hfst2 ?_ ?_
        · intro i2 v1 v2 h1 h2
          exact hcross (i2 + 1) v1 v2 (by simpa using h1) (by simpa using h2)
        · intro i2 j2 a2 b2 c2 d2 h1 h2 h3 h4
          exact hker (i2 + 1) (j2 + 1) a2 b2 c2 d2 (by simpa using h1) (by simpa using h2)
            (by simpa using h3) (by simpa using h4)
      | none =>
        have hc : alLookup c rtni2 = none := by rw [← hhead, ha]
        simp only [gnmAux, ha, hc]
        congr 1
        refine ih hfst2 ?_ ?_
        · intro i2 v1 v2 h1 h2
          have hk := hker 0 (i2 + 1) a v1 c v2 (by simp) (by simpa using h1) (by simp)
            (by simpa using h2)
          rw [alLookup_alInsert, alLookup_alInsert]
          by_cases hav : a = v1
          · rw [if_pos hav, if_pos (hk.1 hav)]
          · rw [if_neg hav, if_neg (fun hcv => hav (hk.2 hcv))]
            exact hcross (i2 + 1) v1 v2 (by simpa using h1) (by simpa using h2)
        · intro i2 j2 a2 b2 c2 d2 h1 h2 h3 h4
          exact hker (i2 + 1) (j2 + 1) a2 b2 c2 d2 (by simpa using h1) (by simpa using h2)
            (by simpa using h3) (by simpa using h4)

theorem sorted_alKeys_insertByKey {q : Nat × Nat} {l : List (Nat × Nat)}
    (h : (alKeys l).Sorted (fun a b : Nat => a ≤ b)) :
    (alKeys (insertByKey q l)).Sorted (fun a b : Nat => a ≤ b) := by
  induction l with
  | nil => simp [insertByKey, alKeys]
  | cons r t ih =>
    have h2 : (∀ b ∈ alKeys t, r.1 ≤ b) ∧ (alKeys t).Sorted (fun a b : Nat => a ≤ b) := by
      simpa [alKeys, List.sorted_cons] using h
    by_cases hq : q.1 ≤ r.1
    · simp only [insertByKey, if_pos hq, alKeys, List.map_cons, List.sorted_cons]
      refine ⟨?_, by simpa [alKeys] using h⟩
      intro b hb
      rcases List.mem_cons.1 hb with hb | hb
      · omega
      · exact le_trans hq (h2.1 b hb)
    · simp only [insertByKey, if_neg hq, alKeys, List.map_cons, List.sorted_cons]
      constructor
      · intro b hb
        have hbm : b ∈ alKeys (insertByKey q t) := by simpa [alKeys] using hb
        have hperm : List.Perm (alKeys (insertByKey q t)) (q.1 :: alKeys t) := by
          simpa [alKeys] using (insertByKey_perm q t).map Prod.fst
        rcases List.mem_cons.1 (hperm.mem_iff.1 hbm) with hb2 | hb2
        · omega
        · exact h2.1 b hb2
      · simpa [alKeys] using ih h2.2

theorem sorted_alKeys_sortByKey (l : List (Nat × Nat)) :
    (alKeys (sortByKey l)).Sorted (fun a b : Nat => a ≤ b) := by
  induction l with
  | nil => simp [sortByKey, alKeys]
  | cons q t ih => exact sorted_alKeys_insertByKey ih

theorem alKeys_sortByKey_eq {p1 p2 : List (Nat × Nat)}
    (h1 : (alKeys p1).Nodup) (h2 : (alKeys p2).Nodup)
    (hdom : ∀ x, x ∈ alKeys p1 ↔ x ∈ alKeys p2) :
    alKeys (sortByKey p1) = alKeys (sortByKey p2) := by
  have hq1 : List.Perm (alKeys (sortByKey p1)) (alKeys p1) := (sortByKey_perm p1).map Prod.fst
  have hq2 : List.Perm (alKeys (sortByKey p2)) (alKeys p2) := (sortByKey_perm p2).map Prod.fst
  have hperm : List.Perm (alKeys (sortByKey p1)) (alKeys (sortByKey p2)) := by
    refine (List.perm_ext_iff_of_nodup (hq1.nodup_iff.2 h1) (hq2.nodup_iff.2 h2)).2 ?_
    intro z
    rw [hq1.mem_iff, hq2.mem_iff]
    exact hdom z
  exact List.eq_of_perm_of_sorted hperm (sorted_alKeys_sortByKey p1) (sorted_alKeys_sortByKey p2)

theorem getElem?_map_snd_inv {l : List (Nat × Nat)} {i a : Nat}
    (h : (l.map Prod.snd)[i]? = some a) : ∃ kv, l[i]? = some kv ∧ kv.2 = a := by
  rw [List.getElem?_map] at h
  cases hk : l[i]? with
  | none =>
    rw [hk] at h
    simp at h
  | some kv =>
    rw [hk] at h
    exact ⟨kv, rfl, by simpa using h⟩

/-- C5 (amended): two mergers over the same node set whose parent maps are
both FLATTENED (every stored parent is itself a root, as after full path
compression) and that present the same final partition (as observed through
`find`) produce identical node mappings for every starting index.  Without
the flattening hypothesis the claim fails: the mapping reads stored parents
and two differently-ordered union sequences can leave different parent
chains for the same partition. -/
theorem c5_amended (m1 m2 : NodeMerge) (k : Nat)
    (h1 : (alKeys m1.parent).Nodup) (h2 : (alKeys m2.parent).Nodup)
    (hdom : ∀ x, x ∈ alKeys m1.parent ↔ x ∈ alKeys m2.parent)
    (hflat1 : ∀ x r, alLookup x m1.parent = some r → alLookup r m1.parent = some r)
    (hflat2 : ∀ x r, alLookup x m2.parent = some r → alLookup r m2.parent = some r)
    (hpart : ∀ x y, x ∈ alKeys m1.parent → y ∈ alKeys m1.parent →
      (obsRoot m1 x = obsRoot m1 y ↔ obsRoot m2 x = obsRoot m2 y)) :
    m1.get_node_mapping k = m2.get_node_mapping k := by
  have hobs1 : ∀ x r, alLookup x m1.parent = some r → obsRoot m1 x = some r :=
    fun x r hx => obsRoot_of_flat hx (hflat1 x r hx)
  have hobs2 : ∀ x r, alLookup x m2.parent = some r → obsRoot m2 x = some r :=
    fun x r hx => obsRoot_of_flat hx (hflat2 x r hx)
  have hstored : ∀ x y px py qx qy, alLookup x m1.parent = some px →
      alLookup y m1.parent = some py → alLookup x m2.parent = some qx →
      alLookup y m2.parent = some qy → (px = py ↔ qx = qy) := by
    intro x y px py qx qy hx hy hx2 hy2
    have hm := hpart x y (mem_alKeys_of_lookup hx) (mem_alKeys_of_lookup hy)
    rw [hobs1 x px hx, hobs1 y py hy, hobs2 x qx hx2, hobs2 y qy hy2] at hm
    simpa using hm
  have hfst : (sortByKey m1.parent).map Prod.fst = (sortByKey m2.parent).map Prod.fst :=
    alKeys_sortByKey_eq h1 h2 hdom
  have hentry1 : ∀ (kv : Nat × Nat), kv ∈ sortByKey m1.parent →
      alLookup kv.1 m1.parent = some kv.2 := by
    intro kv hkv
    exact alLookup_eq_some_of_mem h1 ((sortByKey_perm m1.parent).mem_iff.1 hkv)
  have hentry2 : ∀ (kv : Nat × Nat), kv ∈ sortByKey m2.parent →
      alLookup kv.1 m2.parent = some kv.2 := by
    intro kv hkv
    exact alLookup_eq_some_of_mem h2 ((sortByKey_perm m2.parent).mem_iff.1 hkv)
  have hkeypos : ∀ (i : Nat) (kv1 kv2 : Nat × Nat), (sortByKey m1.parent)[i]? = some kv1 →
      (sortByKey m2.parent)[i]? = some kv2 → kv1.1 = kv2.1 := by
    intro i kv1 kv2 hk1 hk2
    have hmap : (List.map Prod.fst (sortByKey m1.parent))[i]? =
        (List.map Prod.fst (sortByKey m2.parent))[i]? := by rw [hfst]
    rw [List.getElem?_map, List.getElem?_map, hk1, hk2] at hmap
    simpa using hmap
  simp only [NodeMerge.get_node_mapping]
  refine gnmAux_congr hfst ?_ ?_
  · intro i v1 v2 hv1 hv2
    simp [alLookup]
  · intro i j a b c d hia hjb hic hjd
    obtain ⟨kva, hkva, hva⟩ := getElem?_map_snd_inv hia
    obtain ⟨kvb, hkvb, hvb⟩ := getElem?_map_snd_inv hjb
    obtain ⟨kvc, hkvc, hvc⟩ := getElem?_map_snd_inv hic
    obtain ⟨kvd, hkvd, hvd⟩ := getElem?_map_snd_inv hjd
    have hxi : kva.1 = kvc.1 := hkeypos i kva kvc hkva hkvc
    have hxj : kvb.1 = kvd.1 := hkeypos j kvb kvd hkvb hkvd
    have hla : alLookup kva.1 m1.parent = some a := hva ▸ hentry1 kva (List.getElem?_mem hkva)
    have hlb : alLookup kvb.1 m1.parent = some b := hvb ▸ hentry1 kvb (List.getElem?_mem hkvb)
    have hlc : alLookup kva.1 m2.parent = some c := by
      rw [hxi]
      exact hvc ▸ hentry2 kvc (List.getElem?_mem hkvc)
    have hld : alLookup kvb.1 m2.parent = some d := by
      rw [hxj]
      exact hvd ▸ hentry2 kvd (List.getElem?_mem hkvd)
    exact hstored kva.1 kvb.1 a b c d hla hlb hlc hld

/-- Witness for `c5_amended`: two flattened two-node mergers with the same
partition (nodes 1 and 2 merged, roots chosen differently) map identically. -/
theorem c5_amended_witness :
    ((alKeys (NodeMerge.mk [(1, 1), (2, 1)] []).parent).Nodup ∧
      (alKeys (NodeMerge.mk [(1, 2), (2, 2)] []).parent).Nodup) ∧
    (NodeMerge.mk [(1, 1), (2, 1)] []).get_node_mapping 0 =
      (NodeMerge.mk [(1, 2), (2, 2)] []).get_node_mapping 0 :=
  ⟨⟨by decide, by decide⟩,
    c5_amended (NodeMerge.mk [(1, 1), (2, 1)] []) (NodeMerge.mk [(1, 2), (2, 2)] []) 0
      (by decide) (by decide) (fun x => Iff.rfl)
      (by
        intro x r h
        have hx := mem_alKeys_of_lookup h
        simp [alKeys] at hx
        rcases hx with rfl | rfl <;> simp [alLookup] at h <;> simp [alLookup, ← h])
      (by
        intro x r h
        have hx := mem_alKeys_of_lookup h
        simp [alKeys] at hx
        rcases hx with rfl | rfl <;> simp [alLookup] at h <;> simp [alLookup, ← h])
      (by
        intro x y hx hy
        simp [alKeys] at hx hy
        rcases hx with rfl | rfl <;> rcases hy with rfl | rfl <;> decide)⟩

/-! ## Lemmas about `process_switch_state` -/

/-- One loop iteration only appends to the accumulated command list. -/
theorem processSwitch_sub {busTable : List BusRow} {acc acc2 : List (Nat × AdmittanceBranch)}
    {it : Nat × Switch × Bool} (h : processSwitch busTable acc it = some acc2) :
    ∀ x ∈ acc, x ∈ acc2 := by
  intro x hx
  obtain ⟨e, sw, st⟩ := it
  cases het : sw.et
  · simp [processSwitch, het] at h
  · simp [processSwitch, het] at h
  · cases st with
    | false =>
      simp [processSwitch, het] at h
      rw [← h]
      exact hx
    | true =>
      cases hrow : busTable[sw.bus]? with
      | none => simp [processSwitch, het, hrow] at h
      | some row =>
        by_cases hz : sw.z_ohm = 0
        · simp [processSwitch, het, hrow, hz] at h
          rw [← h]
          exact List.mem_append_left _ hx
        · simp [processSwitch, het, hrow, hz] at h
          rw [← h]
          exact List.mem_append_left _ hx
  · simp [processSwitch, het] at h
    rw [← h]
    exact hx
  · simp [processSwitch, het] at h
    rw [← h]
    exact hx

/-- The loop only appends to the accumulated command list. -/
theorem processLoop_sub {busTable : List BusRow} {q : List (Nat × Switch × Bool)}
    {acc bs : List (Nat × AdmittanceBranch)} (h : processLoop busTable q acc = some bs) :
    ∀ x ∈ acc, x ∈ bs := by
  induction q generalizing acc with
  | nil =>
    simp only [processLoop] at h
    intro x hx
    rw [← Option.some.inj h]
    exact hx
  | cons it rest ih =>
    simp only [processLoop] at h
    cases hps : processSwitch busTable acc it with
    | none =>
      rw [hps] at h
      exact Option.noConfusion h
    | some acc2 =>
      rw [hps] at h
      intro x hx
      exact ih h x (processSwitch_sub hps x hx)

/-- A batch containing no `BusLine`/`BusTransformer` switch and no
out-of-range bus index completes without a panic. -/
theorem processLoop_some {busTable : List BusRow} {q : List (Nat × Switch × Bool)}
    (hsup : ∀ it ∈ q, ((it : Nat × Switch × Bool).2.1.et ≠ SwitchType.SwitchBusLine ∧
        it.2.1.et ≠ SwitchType.SwitchBusTransformer) ∧
      (it.2.1.et = SwitchType.SwitchTwoBuses → it.2.2 = true →
        it.2.1.bus < busTable.length)) :
    ∀ acc, ∃ bs, processLoop busTable q acc = some bs := by
  induction q with
  | nil => exact fun acc => ⟨acc, rfl⟩
  | cons it rest ih =>
    intro acc
    have hit := hsup it (List.mem_cons_self it rest)
    have hstep : ∃ acc2, processSwitch busTable acc it = some acc2 := by
      obtain ⟨e, sw, st⟩ := it
      cases het : sw.et
      · exact absurd het hit.1.1
      · exact absurd het hit.1.2
      · cases st with
        | false => exact ⟨acc, by simp [processSwitch, het]⟩
        | true =>
          have hlt : sw.bus < busTable.length := hit.2 het rfl
          have hrow : busTable[sw.bus]? = some busTable[sw.bus] :=
            List.getElem?_eq_getElem hlt
          by_cases hz : sw.z_ohm = 0
          · refine ⟨acc ++ [(e, ⟨⟨1000000, 0⟩, (sw.bus, sw.element), busTable[sw.bus].vn_kv⟩)], ?_⟩
            simp [processSwitch, het, hrow, hz]
          · refine ⟨acc ++ [(e, ⟨⟨sw.z_ohm, 0⟩, (sw.bus, sw.element), busTable[sw.bus].vn_kv⟩)], ?_⟩
            simp [processSwitch, het, hrow, hz]
      · exact ⟨acc, by simp [processSwitch, het]⟩
      · exact ⟨acc, by simp [processSwitch, het]⟩
    obtain ⟨acc2, hacc2⟩ := hstep
    obtain ⟨bs, hbs⟩ := ih (fun it2 hm => hsup it2 (List.mem_cons_of_mem it hm)) acc2
    refine ⟨bs, ?_⟩
    simp only [processLoop, hacc2]
    exact hbs

/-- C7 (amended): provided the batch holds no unsupported (`BusLine` /
`BusTransformer`) switch — which would abort the run via `todo!()` — and no
out-of-range bus index, the step completes and publishes a `NodeMapping`
resource if and only if at least one switch is present, namely the mapping of
the (never-unioned) merger with starting index 0; with an empty switch set no
mapping is published. -/
theorem c7_amended (nodeIdx : List Nat) (busTable : List BusRow)
    (q : List (Nat × Switch × Bool))
    (hsup : ∀ it ∈ q, ((it : Nat × Switch × Bool).2.1.et ≠ SwitchType.SwitchBusLine ∧
        it.2.1.et ≠ SwitchType.SwitchBusTransformer) ∧
      (it.2.1.et = SwitchType.SwitchTwoBuses → it.2.2 = true →
        it.2.1.bus < busTable.length)) :
    ∃ branches, process_switch_state nodeIdx busTable q =
      some (branches,
        if q.length > 0 then some ((NodeMerge.new nodeIdx).get_node_mapping 0) else none) := by
  obtain ⟨bs, hbs⟩ := processLoop_some hsup []
  refine ⟨bs, ?_⟩
  simp [process_switch_state, hbs]

/-- Witness for `c7_amended`: a one-switch batch (closed `TwoBuses`, zero
impedance) publishes the mapping of the fresh merger at offset 0. -/
theorem c7_amended_witness :
    (∀ it ∈ ([(0, ⟨1, 2, SwitchType.SwitchTwoBuses, 0⟩, true)] : List (Nat × Switch × Bool)),
      ((it.2.1.et ≠ SwitchType.SwitchBusLine ∧ it.2.1.et ≠ SwitchType.SwitchBusTransformer) ∧
        (it.2.1.et = SwitchType.SwitchTwoBuses → it.2.2 = true →
          it.2.1.bus < ([⟨10⟩, ⟨11⟩] : List BusRow).length))) ∧
    ∃ branches, process_switch_state [1, 2] [⟨10⟩, ⟨11⟩]
        [(0, ⟨1, 2, SwitchType.SwitchTwoBuses, 0⟩, true)] =
      some (branches,
        if ([(0, (⟨1, 2, SwitchType.SwitchTwoBuses, 0⟩ : Switch), true)] :
            List (Nat × Switch × Bool)).length > 0
        then some ((NodeMerge.new [1, 2]).get_node_mapping 0) else none) :=
  ⟨by decide, c7_amended [1, 2] [⟨10⟩, ⟨11⟩]
    [(0, ⟨1, 2, SwitchType.SwitchTwoBuses, 0⟩, true)] (by decide)⟩

/-- If the batch completes, a closed zero-impedance `TwoBuses` switch leaves
its high-admittance branch in the command list. -/
theorem processLoop_mem_branch {busTable : List BusRow} {q : List (Nat × Switch × Bool)}
    {acc bs : List (Nat × AdmittanceBranch)} {e : Nat} {sw : Switch} {row : BusRow}
    (hmem : (e, sw, true) ∈ q) (het : sw.et = SwitchType.SwitchTwoBuses) (hz : sw.z_ohm = 0)
    (hrow : busTable[sw.bus]? = some row)
    (h : processLoop busTable q acc = some bs) :
    (e, AdmittanceBranch.mk (Cx.mk 1000000 0) (sw.bus, sw.element) row.vn_kv) ∈ bs := by
  induction q generalizing acc with
  | nil => simp at hmem
  | cons it rest ih =>
    simp only [processLoop] at h
    cases hps : processSwitch busTable acc it with
    | none =>
      rw [hps] at h
      exact Option.noConfusion h
    | some acc2 =>
      rw [hps] at h
      rcases List.mem_cons.1 hmem with h1 | h1
      · rw [← h1] at hps
        have hacc2 : acc ++
            [(e, AdmittanceBranch.mk (Cx.mk 1000000 0) (sw.bus, sw.element) row.vn_kv)] = acc2 := by
          simpa [processSwitch, het, hrow, hz] using hps
        refine processLoop_sub h _ ?_
        rw [← hacc2]
        exact List.mem_append_right _ (by simp)
      · exact ih h1 h

/-- C10: whenever the step completes, every closed `TwoBuses` switch with
`z_ohm = 0` gets an `AdmittanceBranch` attached to its entity whose admittance
is exactly `1e6 + 0i`, whose port is `(bus, element)`, and whose voltage base
is the `vn_kv` of the network bus at index `switch.bus`. -/
theorem c10_zero_impedance_branch (nodeIdx : List Nat) (busTable : List BusRow)
    (q : List (Nat × Switch × Bool)) (e : Nat) (sw : Switch) (row : BusRow)
    (res : List (Nat × AdmittanceBranch) × Option (List (Nat × Nat)))
    (hmem : (e, sw, true) ∈ q) (het : sw.et = SwitchType.SwitchTwoBuses)
    (hz : sw.z_ohm = 0) (hrow : busTable[sw.bus]? = some row)
    (hres : process_switch_state nodeIdx busTable q = some res) :
    (e, AdmittanceBranch.mk (Cx.mk 1000000 0) (sw.bus, sw.element) row.vn_kv) ∈ res.1 := by
  simp only [process_switch_state] at hres
  cases hpl : processLoop busTable q [] with
  | none =>
    rw [hpl] at hres
    exact Option.noConfusion hres
  | some bs =>
    rw [hpl] at hres
    have hr : res = (bs,
        if q.length > 0 then some ((NodeMerge.new nodeIdx).get_node_mapping 0) else none) :=
      (Option.some.inj hres).symm
    rw [hr]
    exact processLoop_mem_branch hmem het hz hrow hpl

/-- Witness for `c10_zero_impedance_branch` at the one-switch batch from the
concrete evaluation. -/
theorem c10_witness :
    ((0, (⟨1, 2, SwitchType.SwitchTwoBuses, 0⟩ : Switch), true) ∈
        ([(0, ⟨1, 2, SwitchType.SwitchTwoBuses, 0⟩, true)] : List (Nat × Switch × Bool)) ∧
      ([⟨10⟩, ⟨11⟩] : List BusRow)[(⟨1, 2, SwitchType.SwitchTwoBuses, 0⟩ : Switch).bus]? =
        some ⟨11⟩ ∧
      process_switch_state [1, 2] [⟨10⟩, ⟨11⟩]
          [(0, ⟨1, 2, SwitchType.SwitchTwoBuses, 0⟩, true)] =
        some ([(0, ⟨⟨1000000, 0⟩, (1, 2), 11⟩)], some [(1, 0), (2, 1)])) ∧
    (0, AdmittanceBranch.mk (Cx.mk 1000000 0)
        ((⟨1, 2, SwitchType.SwitchTwoBuses, 0⟩ : Switch).bus,
          (⟨1, 2, SwitchType.SwitchTwoBuses, 0⟩ : Switch).element) (BusRow.mk 11).vn_kv) ∈
      ((([(0, ⟨⟨1000000, 0⟩, (1, 2), 11⟩)], some [(1, 0), (2, 1)]) :
          List (Nat × AdmittanceBranch) × Option (List (Nat × Nat)))).1 :=
  ⟨⟨by decide, by decide, rfl⟩,
    c10_zero_impedance_branch [1, 2] [⟨10⟩, ⟨11⟩]
      [(0, ⟨1, 2, SwitchType.SwitchTwoBuses, 0⟩, true)] 0
      ⟨1, 2, SwitchType.SwitchTwoBuses, 0⟩ ⟨11⟩
      ([(0, ⟨⟨1000000, 0⟩, (1, 2), 11⟩)], some [(1, 0), (2, 1)])
      (by decide) rfl rfl (by decide) rfl⟩

/-! ## Union order-independence on a fresh merger -/

theorem newLoop_parent_lookup (ns : List Nat) (m : NodeMerge) (x : Nat) :
    alLookup x (newLoop ns m).parent = if x ∈ ns then some x else alLookup x m.parent := by
  induction ns generalizing m with
  | nil => simp [newLoop]
  | cons n t ih =>
    simp only [newLoop]
    rw [ih]
    by_cases hx : x ∈ t
    · simp [hx, List.mem_cons]
    · by_cases hnx : n = x
      · subst hnx
        simp [hx, alLookup_alInsert]
      · have hmem : x ∉ n :: t := by
          simp [List.mem_cons]
          exact ⟨fun h => hnx h.symm, hx⟩
        rw [if_neg hx, if_neg hmem, alLookup_alInsert, if_neg hnx]

theorem newLoop_rank_lookup (ns : List Nat) (m : NodeMerge) (x : Nat) :
    alLookup x (newLoop ns m).rank = if x ∈ ns then some 0 else alLookup x m.rank := by
  induction ns generalizing m with
  | nil => simp [newLoop]
  | cons n t ih =>
    simp only [newLoop]
    rw [ih]
    by_cases hx : x ∈ t
    · simp [hx, List.mem_cons]
    · by_cases hnx : n = x
      · subst hnx
        simp [hx, alLookup_alInsert]
      · have hmem : x ∉ n :: t := by
          simp [List.mem_cons]
          exact ⟨fun h => hnx h.symm, hx⟩
        rw [if_neg hx, if_neg hmem, alLookup_alInsert, if_neg hnx]

theorem new_parent_lookup (nodes : List Nat) (x : Nat) :
    alLookup x (NodeMerge.new nodes).parent = if x ∈ nodes then some x else none := by
  rw [NodeMerge.new, newLoop_parent_lookup]
  rfl

theorem new_rank_lookup (nodes : List Nat) (x : Nat) :
    alLookup x (NodeMerge.new nodes).rank = if x ∈ nodes then some 0 else none := by
  rw [NodeMerge.new, newLoop_rank_lookup]
  rfl

/-- C8: on a fresh merger over any node set containing the three distinct
nodes `a`, `b`, `c`, performing `union a b` then `union b c` yields the same
final partition — as observed by `find` on every node of the set — as
performing `union b c` then `union a b` (the representatives differ, the
partition does not). -/
theorem c8_union_order (nodes : List Nat) (a b c : Nat)
    (ha : a ∈ nodes) (hb : b ∈ nodes) (hc : c ∈ nodes)
    (hab : a ≠ b) (hac : a ≠ c) (hbc : b ≠ c) :
    ∃ mxy myz,
      ((NodeMerge.new nodes).union a b).bind (fun m => m.union b c) = some mxy ∧
      ((NodeMerge.new nodes).union b c).bind (fun m => m.union a b) = some myz ∧
      ∀ x ∈ nodes, ∀ y ∈ nodes,
        (obsRoot mxy x = obsRoot mxy y ↔ obsRoot myz x = obsRoot myz y) := by
  have hba : b ≠ a := fun h => hab h.symm
  have hca : c ≠ a := fun h => hac h.symm
  have hcb : c ≠ b := fun h => hbc h.symm
  have la : alLookup a (NodeMerge.new nodes).parent = some a := by
    rw [new_parent_lookup, if_pos ha]
  have lb : alLookup b (NodeMerge.new nodes).parent = some b := by
    rw [new_parent_lookup, if_pos hb]
  have lc : alLookup c (NodeMerge.new nodes).parent = some c := by
    rw [new_parent_lookup, if_pos hc]
  have ra : alLookup a (NodeMerge.new nodes).rank = some 0 := by
    rw [new_rank_lookup, if_pos ha]
  have rb : alLookup b (NodeMerge.new nodes).rank = some 0 := by
    rw [new_rank_lookup, if_pos hb]
  have rc : alLookup c (NodeMerge.new nodes).rank = some 0 := by
    rw [new_rank_lookup, if_pos hc]
  -- first order: union a b (rank tie, b attached under a), then union b c
  have hu1 : (NodeMerge.new nodes).union a b =
      some ⟨alInsert b a (NodeMerge.new nodes).parent,
            alInsert a 1 (NodeMerge.new nodes).rank⟩ := by
    simp [NodeMerge.union, find_of_root la, find_of_root lb, hab, ra, rb]
  have l1b : alLookup b (alInsert b a (NodeMerge.new nodes).parent) = some a := by
    rw [alLookup_alInsert, if_pos rfl]
  have l1a : alLookup a (alInsert b a (NodeMerge.new nodes).parent) = some a := by
    rw [alLookup_alInsert, if_neg hba]
    exact la
  have l1c : alLookup c (alInsert b a (NodeMerge.new nodes).parent) = some c := by
    rw [alLookup_alInsert, if_neg hbc]
    exact lc
  have r1a : alLookup a (alInsert a 1 (NodeMerge.new nodes).rank) = some 1 := by
    rw [alLookup_alInsert, if_pos rfl]
  have r1c : alLookup c (alInsert a 1 (NodeMerge.new nodes).rank) = some 0 := by
    rw [alLookup_alInsert, if_neg hac]
    exact rc
  have hfb : (NodeMerge.mk (alInsert b a (NodeMerge.new nodes).parent)
      (alInsert a 1 (NodeMerge.new nodes).rank)).find b =
      some (a, ⟨alInsert b a (NodeMerge.new nodes).parent,
                alInsert a 1 (NodeMerge.new nodes).rank⟩) :=
    find_of_depth1 l1b l1a hab
  have hfc1 : (NodeMerge.mk (alInsert b a (NodeMerge.new nodes).parent)
      (alInsert a 1 (NodeMerge.new nodes).rank)).find c =
      some (c, ⟨alInsert b a (NodeMerge.new nodes).parent,
                alInsert a 1 (NodeMerge.new nodes).rank⟩) :=
    find_of_root l1c
  have hu2 : (NodeMerge.mk (alInsert b a (NodeMerge.new nodes).parent)
      (alInsert a 1 (NodeMerge.new nodes).rank)).union b c =
      some ⟨alInsert c a (alInsert b a (NodeMerge.new nodes).parent),
            alInsert a 1 (NodeMerge.new nodes).rank⟩ := by
    simp [NodeMerge.union, hfb, hfc1, hac, r1a, r1c]
  -- second order: union b c (rank tie, c attached under b), then union a b
  have hu1b : (NodeMerge.new nodes).union b c =
      some ⟨alInsert c b (NodeMerge.new nodes).parent,
            alInsert b 1 (NodeMerge.new nodes).rank⟩ := by
    simp [NodeMerge.union, find_of_root lb, find_of_root lc, hbc, rb, rc]
  have l2a : alLookup a (alInsert c b (NodeMerge.new nodes).parent) = some a := by
    rw [alLookup_alInsert, if_neg hca]
    exact la
  have l2b : alLookup b (alInsert c b (NodeMerge.new nodes).parent) = some b := by
    rw [alLookup_alInsert, if_neg hcb]
    exact lb
  have r2a : alLookup a (alInsert b 1 (NodeMerge.new nodes).rank) = some 0 := by
    rw [alLookup_alInsert, if_neg hba]
    exact ra
  have r2b : alLookup b (alInsert b 1 (NodeMerge.new nodes).rank) = some 1 := by
    rw [alLookup_alInsert, if_pos rfl]
  have hfa2 : (NodeMerge.mk (alInsert c b (NodeMerge.new nodes).parent)
      (alInsert b 1 (NodeMerge.new nodes).rank)).find a =
      some (a, ⟨alInsert c b (NodeMerge.new nodes).parent,
                alInsert b 1 (NodeMerge.new nodes).rank⟩) :=
    find_of_root l2a
  have hfb2 : (NodeMerge.mk (alInsert c b (NodeMerge.new nodes).parent)
      (alInsert b 1 (NodeMerge.new nodes).rank)).find b =
      some (b, ⟨alInsert c b (NodeMerge.new nodes).parent,
                alInsert b 1 (NodeMerge.new nodes).rank⟩) :=
    find_of_root l2b
  have hu2b : (NodeMerge.mk (alInsert c b (NodeMerge.new nodes).parent)
      (alInsert b 1 (NodeMerge.new nodes).rank)).union a b =
      some ⟨alInsert a b (alInsert c b (NodeMerge.new nodes).parent),
            alInsert b 1 (NodeMerge.new nodes).rank⟩ := by
    simp [NodeMerge.union, hfa2, hfb2, hab, r2a, r2b]
  refine ⟨_, _, by rw [hu1]; exact hu2, by rw [hu1b]; exact hu2b, ?_⟩
  -- stored parents in the final states
  have lk1 : ∀ z, z ∈ nodes →
      alLookup z (alInsert c a (alInsert b a (NodeMerge.new nodes).parent)) =
        some (if z = b ∨ z = c then a else z) := by
    intro z hz
    by_cases hzc : z = c
    · subst hzc
      rw [alLookup_alInsert, if_pos rfl]
      simp
    · by_cases hzb : z = b
      · subst hzb
        rw [alLookup_alInsert, if_neg hcb, alLookup_alInsert, if_pos rfl]
        simp
      · have h1 : ¬c = z := fun h => hzc h.symm
        have h2 : ¬b = z := fun h => hzb h.symm
        rw [alLookup_alInsert, if_neg h1, alLookup_alInsert, if_neg h2,
          new_parent_lookup, if_pos hz, if_neg (by tauto)]
  have lk2 : ∀ z, z ∈ nodes →
      alLookup z (alInsert a b (alInsert c b (NodeMerge.new nodes).parent)) =
        some (if z = a ∨ z = c then b else z) := by
    intro z hz
    by_cases hza : z = a
    · subst hza
      rw [alLookup_alInsert, if_pos rfl]
      simp
    · by_cases hzc : z = c
      · subst hzc
        rw [alLookup_alInsert, if_neg hac, alLookup_alInsert, if_pos rfl]
        simp
      · have h1 : ¬a = z := fun h => hza h.symm
        have h2 : ¬c = z := fun h => hzc h.symm
        rw [alLookup_alInsert, if_neg h1, alLookup_alInsert, if_neg h2,
          new_parent_lookup, if_pos hz, if_neg (by tauto)]
  have obs1 : ∀ z, z ∈ nodes →
      obsRoot ⟨alInsert c a (alInsert b a (NodeMerge.new nodes).parent),
               alInsert a 1 (NodeMerge.new nodes).rank⟩ z =
        some (if z = b ∨ z = c then a else z) := by
    intro z hz
    refine obsRoot_of_flat (lk1 z hz) ?_
    by_cases hzS : z = b ∨ z = c
    · rw [if_pos hzS]
      have := lk1 a ha
      rwa [if_neg (by tauto)] at this
    · rw [if_neg hzS]
      have := lk1 z hz
      rwa [if_neg hzS] at this
  have obs2 : ∀ z, z ∈ nodes →
      obsRoot ⟨alInsert a b (alInsert c b (NodeMerge.new nodes).parent),
               alInsert b 1 (NodeMerge.new nodes).rank⟩ z =
        some (if z = a ∨ z = c then b else z) := by
    intro z hz
    refine obsRoot_of_flat (lk2 z hz) ?_
    by_cases hzS : z = a ∨ z = c
    · rw [if_pos hzS]
      have := lk2 b hb
      rwa [if_neg (by tauto)] at this
    · rw [if_neg hzS]
      have := lk2 z hz
      rwa [if_neg hzS] at this
  intro x hx y hy
  rw [obs1 x hx, obs1 y hy, obs2 x hx, obs2 y hy]
  clear obs1 obs2 lk1 lk2 hu1 hu2 hu1b hu2b hfb hfc1 hfa2 hfb2
  clear l1a l1b l1c r1a r1c l2a l2b r2a r2b la lb lc ra rb rc
  by_cases hxS : x = a ∨ x = b ∨ x = c <;> by_cases hyS : y = a ∨ y = b ∨ y = c
  · have e1 : (if x = b ∨ x = c then a else x) = a := by
      rcases hxS with rfl | rfl | rfl <;> simp [hab, hac]
    have e2 : (if y = b ∨ y = c then a else y) = a := by
      rcases hyS with rfl | rfl | rfl <;> simp [hab, hac]
    have e3 : (if x = a ∨ x = c then b else x) = b := by
      rcases hxS with rfl | rfl | rfl <;> simp [hba, hbc]
    have e4 : (if y = a ∨ y = c then b else y) = b := by
      rcases hyS with rfl | rfl | rfl <;> simp [hba, hbc]
    rw [e1, e2, e3, e4]
    simp
  · have e1 : (if x = b ∨ x = c then a else x) = a := by
      rcases hxS with rfl | rfl | rfl <;> simp [hab, hac]
    have e2 : (if y = b ∨ y = c then a else y) = y := by
      rw [if_neg (by tauto)]
    have e3 : (if x = a ∨ x = c then b else x) = b := by
      rcases hxS with rfl | rfl | rfl <;> simp [hba, hbc]
    have e4 : (if y = a ∨ y = c then b else y) = y := by
      rw [if_neg (by tauto)]
    have hya : ¬y = a := by tauto
    have hyb : ¬y = b := by tauto
    rw [e1, e2, e3, e4]
    simp only [Option.some.injEq]
    constructor
    · intro h
      exact absurd h.symm hya
    · intro h
      exact absurd h.symm hyb
  · have e1 : (if x = b ∨ x = c then a else x) = x := by
      rw [if_neg (by tauto)]
    have e2 : (if y = b ∨ y = c then a else y) = a := by
      rcases hyS with rfl | rfl | rfl <;> simp [hab, hac]
    have e3 : (if x = a ∨ x = c then b else x) = x := by
      rw [if_neg (by tauto)]
    have e4 : (if y = a ∨ y = c then b else y) = b := by
      rcases hyS with rfl | rfl | rfl <;> simp [hba, hbc]
    have hxa : ¬x = a := by tauto
    have hxb : ¬x = b := by tauto
    rw [e1, e2, e3, e4]
    simp only [Option.some.injEq]
    constructor
    · intro h
      exact absurd h hxa
    · intro h
      exact absurd h hxb
  · have e1 : (if x = b ∨ x = c then a else x) = x := by
      rw [if_neg (by tauto)]
    have e2 : (if y = b ∨ y = c then a else y) = y := by
      rw [if_neg (by tauto)]
    have e3 : (if x = a ∨ x = c then b else x) = x := by
      rw [if_neg (by tauto)]
    have e4 : (if y = a ∨ y = c then b else y) = y := by
      rw [if_neg (by tauto)]
    rw [e1, e2, e3, e4]

/-- Witness for `c8_union_order` on nodes `[1,2,3]` with `a, b, c = 1, 2, 3`. -/
theorem c8_union_order_witness :
    ((1 : Nat) ∈ [1, 2, 3] ∧ (2 : Nat) ∈ [1, 2, 3] ∧ (3 : Nat) ∈ [1, 2, 3] ∧
      (1 : Nat) ≠ 2 ∧ (1 : Nat) ≠ 3 ∧ (2 : Nat) ≠ 3) ∧
    ∃ mxy myz,
      ((NodeMerge.new [1, 2, 3]).union 1 2).bind (fun m => m.union 2 3) = some mxy ∧
      ((NodeMerge.new [1, 2, 3]).union 2 3).bind (fun m => m.union 1 2) = some myz ∧
      ∀ x ∈ [1, 2, 3], ∀ y ∈ [1, 2, 3],
        (obsRoot mxy x = obsRoot mxy y ↔ obsRoot myz x = obsRoot myz y) :=
  ⟨⟨by decide, by decide, by decide, by decide, by decide, by decide⟩,
    c8_union_order [1, 2, 3] 1 2 3 (by decide) (by decide) (by decide)
      (by decide) (by decide) (by decide)⟩

/-! ## The union-find safety invariant -/

/-- The parent chain from a node to its root: `ChainTo p x l` says that
following stored parents from `x` visits exactly the nodes of `l` and ends at
a self-parented root. -/
inductive ChainTo (p : List (Nat × Nat)) : Nat → List Nat → Prop where
  | root {x : Nat} : alLookup x p = some x → ChainTo p x [x]
  | step {x y : Nat} {l : List Nat} : alLookup x p = some y → x ≠ y →
      ChainTo p y l → ChainTo p x (x :: l)

theorem ChainTo.head_eq {p : List (Nat × Nat)} {x : Nat} {l : List Nat}
    (h : ChainTo p x l) : ∃ t, l = x :: t := by
  cases h with
  | root hx => exact ⟨[], rfl⟩
  | step hx hne hc => exact ⟨_, rfl⟩

theorem chainTo_unique {p : List (Nat × Nat)} {x : Nat} {l1 l2 : List Nat}
    (h1 : ChainTo p x l1) (h2 : ChainTo p x l2) : l1 = l2 := by
  induction h1 generalizing l2 with
  | root hx =>
    cases h2 with
    | root hy => rfl
    | step hy hne hc =>
      rw [hx] at hy
      exact absurd (Option.some.inj hy) hne
  | step hx hne hc ih =>
    cases h2 with
    | root hy =>
      rw [hx] at hy
      exact absurd (Option.some.inj hy).symm hne
    | step hy hne2 hc2 =>
      rw [hx] at hy
      obtain rfl := (Option.some.inj hy).symm
      rw [ih hc2]

theorem chainTo_mem_last {p : List (Nat × Nat)} {x z : Nat} {l : List Nat}
    (h : ChainTo p x l) (hz : z ∈ l) :
    ∃ l2, ChainTo p z l2 ∧ l2.getLast? = l.getLast? ∧ l2.length ≤ l.length := by
  induction h with
  | root hx =>
    rcases List.mem_singleton.1 hz with rfl
    exact ⟨[z], ChainTo.root hx, rfl, le_refl _⟩
  | step hx hne hc ih =>
    rcases List.mem_cons.1 hz with rfl | hz2
    · exact ⟨_, ChainTo.step hx hne hc, rfl, le_refl _⟩
    · obtain ⟨l2, hc2, hl2, hlen⟩ := ih hz2
      refine ⟨l2, hc2, ?_, by simp; omega⟩
      rw [hl2]
      obtain ⟨t, rfl⟩ := hc.head_eq
      rw [List.getLast?_cons_cons]

theorem chainTo_nodup {p : List (Nat × Nat)} {x : Nat} {l : List Nat}
    (h : ChainTo p x l) : l.Nodup := by
  induction h with
  | root hx => simp
  | step hx hne hc ih =>
    refine List.nodup_cons.2 ⟨?_, ih⟩
    intro hmem
    obtain ⟨l2, hc2, hl2, hlen⟩ := chainTo_mem_last hc hmem
    have heq := chainTo_unique (ChainTo.step hx hne hc) hc2
    rw [← heq] at hlen
    simp at hlen

theorem chainTo_last_root {p : List (Nat × Nat)} {x : Nat} {l : List Nat}
    (h : ChainTo p x l) : ∃ r, l.getLast? = some r ∧ alLookup r p = some r := by
  induction h with
  | root hx => exact ⟨_, rfl, hx⟩
  | step hx hne hc ih =>
    obtain ⟨r, h1, h2⟩ := ih
    refine ⟨r, ?_, h2⟩
    obtain ⟨t, rfl⟩ := hc.head_eq
    rw [List.getLast?_cons_cons]
    exact h1

theorem chainTo_subset_keys {p : List (Nat × Nat)} {x : Nat} {l : List Nat}
    (h : ChainTo p x l) : ∀ z ∈ l, z ∈ alKeys p := by
  induction h with
  | root hx =>
    intro z hz
    rcases List.mem_singleton.1 hz with rfl
    exact mem_alKeys_of_lookup hx
  | step hx hne hc ih =>
    intro z hz
    rcases List.mem_cons.1 hz with rfl | hz2
    · exact mem_alKeys_of_lookup hx
    · exact ih z hz2

theorem chainTo_length_le {p : List (Nat × Nat)} {x : Nat} {l : List Nat}
    (h : ChainTo p x l) : l.length ≤ p.length := by
  have h1 : List.Subperm l (alKeys p) :=
    List.subperm_of_subset (chainTo_nodup h) (chainTo_subset_keys h)
  have h2 := h1.length_le
  simpa [alKeys] using h2

theorem findRootLoop_of_chain {p : List (Nat × Nat)} {x r : Nat} {l : List Nat}
    (h : ChainTo p x l) (hr : l.getLast? = some r) :
    ∀ fuel, l.length ≤ fuel → findRootLoop p fuel x = some r := by
  induction h generalizing r with
  | root hx =>
    rename_i x2
    intro fuel hfuel
    obtain rfl : x2 = r := by simpa using hr
    cases fuel with
    | zero => simp at hfuel
    | succ f => simp [findRootLoop, hx]
  | step hx hne hc ih =>
    intro fuel hfuel
    obtain ⟨t, rfl⟩ := hc.head_eq
    rw [List.getLast?_cons_cons] at hr
    cases fuel with
    | zero => simp at hfuel
    | succ f =>
      simp only [findRootLoop, hx]
      rw [if_neg (fun h2 => hne h2.symm)]
      exact ih hr f (by simp at hfuel ⊢; omega)

theorem chainTo_insert_outside {p : List (Nat × Nat)} {u v y : Nat} {l : List Nat}
    (h : ChainTo p y l) (hu : u ∉ l) : ChainTo (alInsert u v p) y l := by
  induction h with
  | root hx =>
    rename_i x2
    refine ChainTo.root ?_
    rw [alLookup_alInsert, if_neg ?_]
    · exact hx
    · intro he
      exact hu (by simp [he])
  | step hx hne hc ih =>
    refine ChainTo.step ?_ hne (ih (fun hm => hu (List.mem_cons_of_mem _ hm)))
    rw [alLookup_alInsert, if_neg ?_]
    · exact hx
    · intro he
      exact hu (he ▸ List.mem_cons_self _ _)

/-- Full correctness of the compression pass: it terminates within the fuel
bound, repoints every chain node to the root, and touches nothing else. -/
theorem compressLoop_of_chain (l : List Nat) :
    ∀ (p : List (Nat × Nat)) (x r fuel : Nat), ChainTo p x l → l.getLast? = some r →
      l.length ≤ fuel →
      ∃ p2, compressLoop r fuel x p = some p2 ∧ alKeys p2 = alKeys p ∧
        (∀ z ∈ l, alLookup z p2 = some r) ∧
        (∀ z, z ∉ l → alLookup z p2 = alLookup z p) := by
  induction l with
  | nil =>
    intro p x r fuel hchain hlast hfuel
    cases hchain
  | cons hd t ih =>
    intro p x r fuel hchain hlast hfuel
    obtain ⟨t0, heq⟩ := hchain.head_eq
    obtain ⟨rfl, rfl⟩ : hd = x ∧ t = t0 := ⟨(List.cons.inj heq).1, (List.cons.inj heq).2⟩
    cases hchain with
    | root hx =>
      have hrx : hd = r := by simpa using hlast
      subst hrx
      cases fuel with
      | zero => simp at hfuel
      | succ f =>
        refine ⟨p, ?_, rfl, ?_, fun z hz => rfl⟩
        · simp [compressLoop, hx]
        · intro z hz
          rcases List.mem_singleton.1 hz with rfl
          exact hx
    | step hx hne hc =>
      rename_i y
      have hlast2 : t.getLast? = some r := by
        obtain ⟨t2, heq2⟩ := hc.head_eq
        rw [heq2, List.getLast?_cons_cons] at hlast
        rw [heq2]
        exact hlast
      cases fuel with
      | zero => simp at hfuel
      | succ f =>
        by_cases hyr : y = r
        · subst hyr
          have hrr : alLookup y p = some y := by
            obtain ⟨r2, ha, hb⟩ := chainTo_last_root hc
            rw [hlast2] at ha
            obtain rfl := Option.some.inj ha
            exact hb
          have ht : t = [y] := chainTo_unique hc (ChainTo.root hrr)
          subst ht
          refine ⟨p, ?_, rfl, ?_, fun z hz => rfl⟩
          · simp [compressLoop, hx]
          · intro z hz
            rcases List.mem_cons.1 hz with rfl | hz2
            · exact hx
            · rcases List.mem_singleton.1 hz2 with rfl
              exact hrr
        · have hxt : hd ∉ t := by
            have hnd := chainTo_nodup (ChainTo.step hx hne hc)
            exact (List.nodup_cons.1 hnd).1
          have hc2 : ChainTo (alInsert hd r p) y t := chainTo_insert_outside hc hxt
          obtain ⟨p2, h1, h2, h3, h4⟩ := ih (alInsert hd r p) y r f hc2 hlast2
            (by simp at hfuel ⊢; omega)
          refine ⟨p2, ?_, ?_, ?_, ?_⟩
          · simp only [compressLoop, hx]
            rw [if_neg hyr]
            exact h1
          · rw [h2, alKeys_alInsert_of_mem r (mem_alKeys_of_lookup hx)]
          · intro z hz
            rcases List.mem_cons.1 hz with rfl | hz2
            · rw [h4 z hxt, alLookup_alInsert, if_pos rfl]
            · exact h3 z hz2
          · intro z hz
            have hzt : z ∉ t := fun h5 => hz (List.mem_cons_of_mem _ h5)
            have hzx : ¬hd = z := fun h5 => hz (h5 ▸ List.mem_cons_self _ _)
            rw [h4 z hzt, alLookup_alInsert, if_neg hzx]

/-- `find` evaluated through a chain: the returned root, the compressed state,
and what the compression changed. -/
theorem find_of_chain {m : NodeMerge} {x r : Nat} {l : List Nat}
    (hchain : ChainTo m.parent x l) (hlast : l.getLast? = some r) :
    ∃ p2, m.find x = some (r, ⟨p2, m.rank⟩) ∧ alKeys p2 = alKeys m.parent ∧
      (∀ z ∈ l, alLookup z p2 = some r) ∧
      (∀ z, z ∉ l → alLookup z p2 = alLookup z m.parent) := by
  have hlen : l.length ≤ m.parent.length + 1 :=
    le_trans (chainTo_length_le hchain) (Nat.le_succ _)
  have h1 := findRootLoop_of_chain hchain hlast (m.parent.length + 1) hlen
  obtain ⟨p2, h2, h3, h4, h5⟩ :=
    compressLoop_of_chain l m.parent x r (m.parent.length + 1) hchain hlast hlen
  refine ⟨p2, ?_, h3, h4, h5⟩
  simp [NodeMerge.find, h1, h2]

/-- Roots are preserved by the compression pass: every node's chain in the
compressed map still ends at the same root. -/
theorem chainTo_after_compress {p p2 : List (Nat × Nat)} {x0 r : Nat} {lc : List Nat}
    (hc : ChainTo p x0 lc) (hlast : lc.getLast? = some r)
    (hmem : ∀ z ∈ lc, alLookup z p2 = some r)
    (houts : ∀ z, z ∉ lc → alLookup z p2 = alLookup z p) :
    ∀ z lz, ChainTo p z lz → ∀ rz, lz.getLast? = some rz →
      ∃ l2, ChainTo p2 z l2 ∧ l2.getLast? = some rz := by
  have hrmem : r ∈ lc := List.mem_of_mem_getLast? hlast
  have hrr : alLookup r p2 = some r := hmem r hrmem
  have hin : ∀ z ∈ lc, ∀ lz rz, ChainTo p z lz → lz.getLast? = some rz → rz = r := by
    intro z hz lz rz hchz hlz
    obtain ⟨l3, hc3, hl3, hlen3⟩ := chainTo_mem_last hc hz
    rw [chainTo_unique hchz hc3, hl3, hlast] at hlz
    exact (Option.some.inj hlz).symm
  intro z lz hchz
  induction hchz with
  | root hx =>
    rename_i z2
    intro rz hlz
    obtain rfl : z2 = rz := by simpa using hlz
    by_cases hzc : z2 ∈ lc
    · have hzr : z2 = r := hin z2 hzc [z2] z2 (ChainTo.root hx) (by simp)
      subst hzr
      exact ⟨[z2], ChainTo.root hrr, by simp⟩
    · refine ⟨[z2], ChainTo.root ?_, by simp⟩
      rw [houts z2 hzc]
      exact hx
  | step hx hne hcz ih =>
    rename_i z2 w lw
    intro rz hlz
    have hlz2 : lw.getLast? = some rz := by
      obtain ⟨t, heq⟩ := hcz.head_eq
      rw [heq, List.getLast?_cons_cons] at hlz
      rw [heq]
      exact hlz
    by_cases hzc : z2 ∈ lc
    · have hrz : rz = r := hin z2 hzc _ rz (ChainTo.step hx hne hcz) hlz
      subst hrz
      by_cases hz2r : z2 = rz
      · refine ⟨[z2], ChainTo.root ?_, by simp [hz2r]⟩
        rw [hmem z2 hzc, hz2r]
      · exact ⟨[z2, rz], ChainTo.step (hmem z2 hzc) hz2r (ChainTo.root hrr), by simp⟩
    · obtain ⟨l2, hc2, hl2⟩ := ih rz hlz2
      have hz2 : alLookup z2 p2 = some w := by
        rw [houts z2 hzc]
        exact hx
      refine ⟨z2 :: l2, ChainTo.step hz2 hne hc2, ?_⟩
      obtain ⟨t, heq⟩ := hc2.head_eq
      rw [heq, List.getLast?_cons_cons]
      rw [heq] at hl2
      exact hl2

/-- Safety invariant of a merger state: keys are unique, every registered node
has a parent chain reaching a root, and every registered node has a rank
entry. -/
structure UFInv (m : NodeMerge) : Prop where
  nodupKeys : (alKeys m.parent).Nodup
  chains : ∀ x, x ∈ alKeys m.parent → ∃ l, ChainTo m.parent x l
  rankKeys : ∀ x, x ∈ alKeys m.parent → x ∈ alKeys m.rank

theorem alKeys_nodup_alInsert {l : List (Nat × Nat)} (k v : Nat)
    (h : (alKeys l).Nodup) : (alKeys (alInsert k v l)).Nodup := by
  rw [alKeys_alInsert]
  by_cases hk : k ∈ alKeys l
  · simpa [hk]
  · rw [if_neg hk]
    refine List.Nodup.append h (List.nodup_singleton k) ?_
    intro z hz hz2
    rcases List.mem_singleton.1 hz2 with rfl
    exact hk hz

theorem mem_alKeys_alInsert_of_mem {l : List (Nat × Nat)} {x : Nat} (k v : Nat)
    (h : x ∈ alKeys l) : x ∈ alKeys (alInsert k v l) := by
  rw [alKeys_alInsert]
  by_cases hk : k ∈ alKeys l
  · rwa [if_pos hk]
  · rw [if_neg hk]
    exact List.mem_append_left _ h

theorem new_keys_mem (nodes : List Nat) (x : Nat) :
    x ∈ alKeys (NodeMerge.new nodes).parent ↔ x ∈ nodes := by
  rw [← alLookup_isSome_iff_mem, new_parent_lookup]
  by_cases hx : x ∈ nodes <;> simp [hx]

theorem newLoop_nodup (ns : List Nat) (m : NodeMerge)
    (h : (alKeys m.parent).Nodup) : (alKeys (newLoop ns m).parent).Nodup := by
  induction ns generalizing m with
  | nil => exact h
  | cons n t ih => exact ih _ (alKeys_nodup_alInsert n n h)

theorem UFInv_new (nodes : List Nat) : UFInv (NodeMerge.new nodes) := by
  refine ⟨newLoop_nodup nodes ⟨[], []⟩ (by simp [alKeys]), ?_, ?_⟩
  · intro x hx
    rw [new_keys_mem] at hx
    exact ⟨[x], ChainTo.root (by rw [new_parent_lookup, if_pos hx])⟩
  · intro x hx
    rw [new_keys_mem] at hx
    rw [← alLookup_isSome_iff_mem, new_rank_lookup, if_pos hx]
    rfl

/-- A chain from `x` back to `x` forces `x` to be a root. -/
theorem chainTo_self_root {p : List (Nat × Nat)} {x : Nat} {l : List Nat}
    (h : ChainTo p x l) (hlast : l.getLast? = some x) : alLookup x p = some x := by
  cases h with
  | root hx => exact hx
  | step hx hne hc =>
    exfalso
    obtain ⟨t, heq⟩ := hc.head_eq
    rename_i y lw
    have hnd := chainTo_nodup (ChainTo.step hx hne hc)
    have hxlw : x ∈ lw := by
      refine List.mem_of_mem_getLast? (l := lw) ?_
      rw [heq, List.getLast?_cons_cons] at hlast
      rw [heq]
      exact hlast
    exact (List.nodup_cons.1 hnd).1 hxlw

/-- Preservation of the invariant by `find`, together with everything the
surrounding `union` needs: the returned root, its chain in the old state,
root-status of the result, key stability, and root preservation. -/
theorem UFInv_find {m : NodeMerge} {x : Nat} (hinv : UFInv m)
    (hx : x ∈ alKeys m.parent) :
    ∃ r m2 l, m.find x = some (r, m2) ∧ m2.rank = m.rank ∧
      ChainTo m.parent x l ∧ l.getLast? = some r ∧
      alLookup r m2.parent = some r ∧
      UFInv m2 ∧ alKeys m2.parent = alKeys m.parent ∧
      (∀ z lz rz, ChainTo m.parent z lz → lz.getLast? = some rz →
        ∃ l2, ChainTo m2.parent z l2 ∧ l2.getLast? = some rz) := by
  obtain ⟨l, hchain⟩ := hinv.chains x hx
  obtain ⟨r, hlast, hroot⟩ := chainTo_last_root hchain
  obtain ⟨p2, hfind, hkeys, hmem, houts⟩ := find_of_chain hchain hlast
  have hpres := chainTo_after_compress hchain hlast hmem houts
  have hrootNew : alLookup r p2 = some r := hmem r (List.mem_of_mem_getLast? hlast)
  refine ⟨r, ⟨p2, m.rank⟩, l, hfind, rfl, hchain, hlast, hrootNew, ?_, hkeys,
    fun z lz rz hcz hlz => hpres z lz hcz rz hlz⟩
  refine ⟨?_, ?_, ?_⟩
  · show (alKeys p2).Nodup
    rw [hkeys]
    exact hinv.nodupKeys
  · intro z hz
    have hz2 : z ∈ alKeys m.parent := by
      show z ∈ alKeys m.parent
      rw [← hkeys]
      exact hz
    obtain ⟨lz, hcz⟩ := hinv.chains z hz2
    obtain ⟨rz, hlz, _⟩ := chainTo_last_root hcz
    obtain ⟨l2, hc2, _⟩ := hpres z lz hcz rz hlz
    exact ⟨l2, hc2⟩
  · intro z hz
    have hz2 : z ∈ alKeys m.parent := by
      show z ∈ alKeys m.parent
      rw [← hkeys]
      exact hz
    exact hinv.rankKeys z hz2

/-- Attaching root `r2` under root `r1` redirects exactly the chains that
ended at `r2`; all other roots are unchanged. -/
theorem chainTo_after_attach {p : List (Nat × Nat)} {r1 r2 : Nat}
    (h1 : alLookup r1 p = some r1) (h2 : alLookup r2 p = some r2) (hne : r1 ≠ r2) :
    ∀ z lz, ChainTo p z lz → ∀ rz, lz.getLast? = some rz →
      ∃ l2, ChainTo (alInsert r2 r1 p) z l2 ∧
        l2.getLast? = some (if rz = r2 then r1 else rz) := by
  intro z lz hz
  induction hz with
  | root hx =>
    rename_i z2
    intro rz hlz
    obtain rfl : z2 = rz := by simpa using hlz
    by_cases hz2 : z2 = r2
    · have hlk : alLookup z2 (alInsert r2 r1 p) = some r1 := by
        rw [alLookup_alInsert, if_pos hz2.symm]
      have hr1 : alLookup r1 (alInsert r2 r1 p) = some r1 := by
        rw [alLookup_alInsert, if_neg (fun h => hne h.symm)]
        exact h1
      have hzr1 : z2 ≠ r1 := by
        rw [hz2]
        exact fun h => hne h.symm
      refine ⟨[z2, r1], ChainTo.step hlk hzr1 (ChainTo.root hr1), ?_⟩
      simp [hz2]
    · refine ⟨[z2], ChainTo.root ?_, by simp [hz2]⟩
      rw [alLookup_alInsert, if_neg (fun h => hz2 h.symm)]
      exact hx
  | step hx hne2 hcz ih =>
    rename_i z2 w lw
    intro rz hlz
    have hlz2 : lw.getLast? = some rz := by
      obtain ⟨t, heq⟩ := hcz.head_eq
      rw [heq, List.getLast?_cons_cons] at hlz
      rw [heq]
      exact hlz
    obtain ⟨l2, hc2, hl2⟩ := ih rz hlz2
    have hz2r2 : ¬r2 = z2 := by
      intro h
      rw [← h] at hx
      rw [h2] at hx
      refine hne2 ?_
      rw [← h]
      exact Option.some.inj hx
    refine ⟨z2 :: l2, ChainTo.step ?_ hne2 hc2, ?_⟩
    · rw [alLookup_alInsert, if_neg hz2r2]
      exact hx
    · obtain ⟨t, heq⟩ := hc2.head_eq
      rw [heq, List.getLast?_cons_cons]
      rw [heq] at hl2
      exact hl2

/-- Invariant for the state after attaching root `r2` under root `r1`. -/
theorem UFInv_attach {m : NodeMerge} {r1 r2 : Nat} (hinv : UFInv m)
    (h1 : alLookup r1 m.parent = some r1) (h2 : alLookup r2 m.parent = some r2)
    (hne : r1 ≠ r2) (rk : List (Nat × Nat))
    (hrk : ∀ x, x ∈ alKeys m.rank → x ∈ alKeys rk) :
    UFInv ⟨alInsert r2 r1 m.parent, rk⟩ ∧
      alKeys (alInsert r2 r1 m.parent) = alKeys m.parent := by
  have hkeys : alKeys (alInsert r2 r1 m.parent) = alKeys m.parent :=
    alKeys_alInsert_of_mem r1 (mem_alKeys_of_lookup h2)
  refine ⟨⟨?_, ?_, ?_⟩, hkeys⟩
  · show (alKeys (alInsert r2 r1 m.parent)).Nodup
    rw [hkeys]
    exact hinv.nodupKeys
  · intro x hx
    rw [show alKeys (NodeMerge.mk (alInsert r2 r1 m.parent) rk).parent =
      alKeys m.parent from hkeys] at hx
    obtain ⟨lx, hcx⟩ := hinv.chains x hx
    obtain ⟨rx, hlx, _⟩ := chainTo_last_root hcx
    obtain ⟨l2, hc2, _⟩ := chainTo_after_attach h1 h2 hne x lx hcx rx hlx
    exact ⟨l2, hc2⟩
  · intro x hx
    rw [show alKeys (NodeMerge.mk (alInsert r2 r1 m.parent) rk).parent =
      alKeys m.parent from hkeys] at hx
    exact hrk x (hinv.rankKeys x hx)

/-- Preservation of the invariant by a successful `union`. -/
theorem UFInv_union {m m2 : NodeMerge} {a b : Nat} (hinv : UFInv m)
    (ha : a ∈ alKeys m.parent) (hb : b ∈ alKeys m.parent)
    (h : m.union a b = some m2) :
    UFInv m2 ∧ alKeys m2.parent = alKeys m.parent := by
  obtain ⟨r1, mA, l1, hfind1, hrank1, hchain1, hlast1, hroot1, hinvA, hkeysA, hpresA⟩ :=
    UFInv_find hinv ha
  have hbA : b ∈ alKeys mA.parent := by
    rw [hkeysA]
    exact hb
  obtain ⟨r2, mB, l2, hfind2, hrank2, hchain2, hlast2, hroot2, hinvB, hkeysB, hpresB⟩ :=
    UFInv_find hinvA hbA
  simp only [NodeMerge.union, hfind1, hfind2] at h
  -- r1 is still a root in mB
  have hroot1B : alLookup r1 mB.parent = some r1 := by
    obtain ⟨l3, hc3, hl3⟩ := hpresB r1 [r1] r1 (ChainTo.root hroot1) (by simp)
    exact chainTo_self_root hc3 (by
      obtain ⟨t, heq⟩ := hc3.head_eq
      rw [heq] at hl3 ⊢
      exact hl3)
  by_cases hr : r1 = r2
  · rw [if_pos hr] at h
    obtain rfl := Option.some.inj h
    exact ⟨hinvB, by rw [hkeysB, hkeysA]⟩
  · rw [if_neg hr] at h
    -- rank entries exist for both roots
    have hr1k : r1 ∈ alKeys mB.rank :=
      hinvB.rankKeys r1 (mem_alKeys_of_lookup hroot1B)
    have hr2k : r2 ∈ alKeys mB.rank :=
      hinvB.rankKeys r2 (mem_alKeys_of_lookup hroot2)
    obtain ⟨k1, hk1⟩ : ∃ k, alLookup r1 mB.rank = some k := by
      have := (alLookup_isSome_iff_mem r1 mB.rank).2 hr1k
      cases hv : alLookup r1 mB.rank
      · rw [hv] at this
        simp at this
      · exact ⟨_, rfl⟩
    obtain ⟨k2, hk2⟩ : ∃ k, alLookup r2 mB.rank = some k := by
      have := (alLookup_isSome_iff_mem r2 mB.rank).2 hr2k
      cases hv : alLookup r2 mB.rank
      · rw [hv] at this
        simp at this
      · exact ⟨_, rfl⟩
    simp only [hk1, hk2] at h
    by_cases hk : k1 < k2
    · rw [if_pos hk] at h
      obtain rfl := (Option.some.inj h).symm
      have := UFInv_attach hinvB hroot2 hroot1B (fun h5 => hr h5.symm)
        mB.rank (fun x hx => hx)
      exact ⟨this.1, by rw [show alKeys (NodeMerge.mk (alInsert r1 r2 mB.parent)
        mB.rank).parent = alKeys mB.parent from this.2, hkeysB, hkeysA]⟩
    · rw [if_neg hk] at h
      obtain rfl := (Option.some.inj h).symm
      have := UFInv_attach hinvB hroot1B hroot2 hr
        (if k1 = k2 then alInsert r1 (k1 + 1) mB.rank else mB.rank)
        (fun x hx => by
          by_cases hke : k1 = k2
          · rw [if_pos hke]
            exact mem_alKeys_alInsert_of_mem r1 (k1 + 1) hx
          · rw [if_neg hke]
            exact hx)
      exact ⟨this.1, by rw [show alKeys (NodeMerge.mk (alInsert r2 r1 mB.parent)
        (if k1 = k2 then alInsert r1 (k1 + 1) mB.rank else mB.rank)).parent =
        alKeys mB.parent from this.2, hkeysB, hkeysA]⟩

/-- Merger states built by `new(nodes)` and mutated only by `union` and `find`
on registered nodes. -/
inductive Reachable (nodes : List Nat) : NodeMerge → Prop where
  | init : Reachable nodes (NodeMerge.new nodes)
  | union_step {m m2 : NodeMerge} {x y : Nat} : Reachable nodes m → x ∈ nodes →
      y ∈ nodes → m.union x y = some m2 → Reachable nodes m2
  | find_step {m m2 : NodeMerge} {x r : Nat} : Reachable nodes m → x ∈ nodes →
      m.find x = some (r, m2) → Reachable nodes m2

theorem reachable_inv {nodes : List Nat} {m : NodeMerge} (h : Reachable nodes m) :
    UFInv m ∧ ∀ z, z ∈ alKeys m.parent ↔ z ∈ nodes := by
  induction h with
  | init => exact ⟨UFInv_new nodes, new_keys_mem nodes⟩
  | union_step hre hx hy hu ih =>
    obtain ⟨hinv, hkeys⟩ := ih
    rename_i m1 m2 x y
    have hxk : x ∈ alKeys m1.parent := (hkeys x).2 hx
    have hyk : y ∈ alKeys m1.parent := (hkeys y).2 hy
    obtain ⟨hinv2, hk2⟩ := UFInv_union hinv hxk hyk hu
    refine ⟨hinv2, fun z => ?_⟩
    rw [hk2]
    exact hkeys z
  | find_step hre hx hf ih =>
    obtain ⟨hinv, hkeys⟩ := ih
    rename_i m1 m2 x r
    have hxk : x ∈ alKeys m1.parent := (hkeys x).2 hx
    obtain ⟨r2, m3, l, hfind, h5, h6, h7, h8, hinv3, hkeys3, h9⟩ := UFInv_find hinv hxk
    rw [hf] at hfind
    have heq := Option.some.inj hfind
    obtain ⟨rfl, rfl⟩ : r = r2 ∧ m2 = m3 :=
      ⟨congrArg Prod.fst heq, congrArg Prod.snd heq⟩
    refine ⟨hinv3, fun z => ?_⟩
    rw [hkeys3]
    exact hkeys z

/-- C9: on a merger built by `new(nodes)` and mutated only by `union` and
`find` on registered nodes, `find` on a registered node never hits a
missing-key panic: it returns the root of the node's parent chain (a
self-parented node reached from it).  `find` on a node outside the
initializing set fails (modelled `none`, the missing-key panic) rather than
returning a default. -/
theorem c9_find_safety (nodes : List Nat) (m : NodeMerge) (h : Reachable nodes m) :
    (∀ x, x ∈ nodes → ∃ r m2 l, m.find x = some (r, m2) ∧
      ChainTo m.parent x l ∧ l.getLast? = some r ∧ alLookup r m.parent = some r) ∧
    (∀ x, x ∉ nodes → m.find x = none) := by
  obtain ⟨hinv, hkeys⟩ := reachable_inv h
  constructor
  · intro x hx
    obtain ⟨r, m2, l, hfind, h5, hchain, hlast, h6, h7, h8, h9⟩ :=
      UFInv_find hinv ((hkeys x).2 hx)
    obtain ⟨r2, hl2, hroot⟩ := chainTo_last_root hchain
    rw [hlast] at hl2
    obtain rfl := Option.some.inj hl2
    exact ⟨r, m2, l, hfind, hchain, hlast, hroot⟩
  · intro x hx
    have hlk : alLookup x m.parent = none := by
      rw [alLookup_eq_none_iff]
      intro hm
      exact hx ((hkeys x).1 hm)
    simp [NodeMerge.find, findRootLoop, hlk]

/-- Witness for `c9_find_safety` on the fresh merger over `[1, 2]`:
`find 1` succeeds with a root, `find 5` fails. -/
theorem c9_witness :
    Reachable [1, 2] (NodeMerge.new [1, 2]) ∧
    (∃ r m2 l, (NodeMerge.new [1, 2]).find 1 = some (r, m2) ∧
      ChainTo (NodeMerge.new [1, 2]).parent 1 l ∧ l.getLast? = some r ∧
      alLookup r (NodeMerge.new [1, 2]).parent = some r) ∧
    (NodeMerge.new [1, 2]).find 5 = none :=
  ⟨Reachable.init,
    (c9_find_safety [1, 2] (NodeMerge.new [1, 2]) Reachable.init).1 1 (by decide),
    (c9_find_safety [1, 2] (NodeMerge.new [1, 2]) Reachable.init).2 5 (by decide)⟩
